import Mathlib

/-!
# Reference counting of `SharedPtr` / `WeakPtr` (src/smart_ptr.h)

A shallow embedding of the header `src/smart_ptr.h`.

* A pointer is an `Option Nat`: `none` is `nullptr`, `some a` is the address `a`.
* `Mem` is the free store as far as the header touches it: the control blocks
  (`new ControlBlock(a, b)` hands out the next unused address), the log of every
  `delete ptr_` executed on a non-null pointee and the log of every
  `delete control_block_`.
* A member function is a function from the object's fields and the memory to the new
  fields and the new memory; the result is `none` where the C++ dereferences a null
  control-block pointer or a control block that has been deleted.
* Addresses are never handed out twice, so that a pointer to a deleted block stays
  recognisable as such.
* The counters are C++ `int`; they are modelled as unbounded `Int` (signed overflow
  needs more than two thousand million handles on one block and is left out).
* `State` adds the handle objects of a client program, `Op` is the list of public
  operations a client can perform on them and `step` runs one operation.
-/

namespace SmartPtr

/-! ## Memory -/

/-- The class `ControlBlock`: the two counters. -/
structure ControlBlock where
  shared_use_count_ : Int
  weak_use_count_ : Int
deriving DecidableEq, Repr

/-- One control-block slot of the free store: the counters last stored in it and whether
the block is currently allocated (`false` before `new` and after `delete`). -/
structure Cell where
  cb : ControlBlock
  allocated : Bool
deriving DecidableEq, Repr

/-- The free store. -/
structure Mem where
  /-- control-block slot at each address -/
  heap : Nat → Cell
  /-- the next address `new ControlBlock` hands out -/
  next : Nat
  /-- every non-null pointee on which `delete ptr_` ran, oldest first -/
  deleted : List Nat
  /-- every address on which `delete control_block_` ran, oldest first -/
  freed : List Nat

/-- The empty free store. -/
def Mem.empty : Mem :=
  { heap := fun _ => { cb := { shared_use_count_ := 0, weak_use_count_ := 0 }, allocated := false }
    next := 0
    deleted := []
    freed := [] }

/-- Dereference of a `ControlBlock*`: the address and the counters, or `none` when the
pointer is null or the block is not allocated. -/
def Mem.deref (m : Mem) (a : Option Nat) : Option (Nat × ControlBlock) :=
  match a with
  | none => none
  | some b => if (m.heap b).allocated = true then some (b, (m.heap b).cb) else none

/-- Store new counters into the block at `b`. -/
def Mem.store (m : Mem) (b : Nat) (c : ControlBlock) : Mem :=
  { m with
    heap := fun x => if x = b then { cb := c, allocated := (m.heap b).allocated } else m.heap x }

/-- The statement `new ControlBlock(a, b)`: the fresh address and the new memory. -/
def Mem.newBlock (m : Mem) (a b : Int) : Nat × Mem :=
  (m.next,
   { m with
     heap := fun x =>
       if x = m.next then
         { cb := { shared_use_count_ := a, weak_use_count_ := b }, allocated := true }
       else m.heap x
     next := m.next + 1 })

/-- The statement `delete ptr_`: nothing for `nullptr`, else the pointee is logged. -/
def Mem.deletePtr (m : Mem) (p : Option Nat) : Mem :=
  match p with
  | none => m
  | some q => { m with deleted := m.deleted ++ [q] }

/-- The statement `delete control_block_` on the block at `b`. -/
def Mem.deleteBlock (m : Mem) (b : Nat) : Mem :=
  { m with
    heap := fun x => if x = b then { cb := (m.heap b).cb, allocated := false } else m.heap x
    freed := m.freed ++ [b] }

/-! ## The two handle classes -/

/-- The class `SharedPtr`: its two data members. -/
structure SharedPtr where
  ptr_ : Option Nat
  control_block_ : Option Nat
deriving DecidableEq, Repr

/-- The class `WeakPtr`: its two data members. -/
structure WeakPtr where
  ptr_ : Option Nat
  control_block_ : Option Nat
deriving DecidableEq, Repr

/-- `SharedPtr::Get`. -/
def SharedPtr.Get (this : SharedPtr) : Option Nat := this.ptr_

/-- `SharedPtr::GetCB`. -/
def SharedPtr.GetCB (this : SharedPtr) : Option Nat := this.control_block_

/-- `WeakPtr::GetCB`. -/
def WeakPtr.GetCB (this : WeakPtr) : Option Nat := this.control_block_

/-- `SharedPtr::SharedPtr()`. -/
def SharedPtr.ctor_default (m : Mem) : SharedPtr × Mem :=
  let r := m.newBlock 1 0
  ({ ptr_ := none, control_block_ := some r.1 }, r.2)

/-- `SharedPtr::SharedPtr(std::string* ptr)`. -/
def SharedPtr.ctor_raw (ptr : Option Nat) (m : Mem) : SharedPtr × Mem :=
  let r := m.newBlock 1 0
  ({ ptr_ := ptr, control_block_ := some r.1 }, r.2)

/-- `SharedPtr::SharedPtr(const SharedPtr& other)`. -/
def SharedPtr.ctor_copy (other : SharedPtr) (m : Mem) : Option (SharedPtr × Mem) :=
  match m.deref other.GetCB with
  | none => none
  | some (b, c) =>
    some ({ ptr_ := other.ptr_, control_block_ := other.control_block_ },
          m.store b { c with shared_use_count_ := c.shared_use_count_ + 1 })

/-- `SharedPtr::SharedPtr(SharedPtr&& other)`: the same body as the copy constructor. -/
def SharedPtr.ctor_move (other : SharedPtr) (m : Mem) : Option (SharedPtr × Mem) :=
  match m.deref other.GetCB with
  | none => none
  | some (b, c) =>
    some ({ ptr_ := other.ptr_, control_block_ := other.control_block_ },
          m.store b { c with shared_use_count_ := c.shared_use_count_ + 1 })

/-- `SharedPtr::SharedPtr(std::string* ptr, ControlBlock* control_block)`. -/
def SharedPtr.ctor_pair (ptr : Option Nat) (control_block : Option Nat) (m : Mem) :
    Option (SharedPtr × Mem) :=
  match m.deref control_block with
  | none => none
  | some (b, c) =>
    some ({ ptr_ := ptr, control_block_ := control_block },
          m.store b { c with shared_use_count_ := c.shared_use_count_ + 1 })

/-- `SharedPtr::DeleteThis`: the fields of the object afterwards and the new memory. -/
def SharedPtr.DeleteThis (this : SharedPtr) (m : Mem) : Option (SharedPtr × Mem) :=
  match m.deref this.control_block_ with
  | none => none
  | some (b, c) =>
    if c.shared_use_count_ = 1 then
      let m1 := m.store b { c with shared_use_count_ := c.shared_use_count_ - 1 }
      let m2 := m1.deletePtr this.ptr_
      if c.weak_use_count_ = 0 then some (this, m2.deleteBlock b) else some (this, m2)
    else
      some ({ ptr_ := none, control_block_ := none },
            m.store b { c with shared_use_count_ := c.shared_use_count_ - 1 })

/-- `SharedPtr::operator=(const SharedPtr& other)`; `thisAddr` and `otherAddr` are the
addresses of the two objects, compared by `this == &other`. -/
def SharedPtr.assign_copy (thisAddr otherAddr : Nat) (this other : SharedPtr) (m : Mem) :
    Option (SharedPtr × Mem) :=
  if thisAddr = otherAddr then some (this, m)
  else
    match this.DeleteThis m with
    | none => none
    | some (_, m1) =>
      match m1.deref other.control_block_ with
      | none => none
      | some (b, c) =>
        some ({ ptr_ := other.ptr_, control_block_ := other.control_block_ },
              m1.store b { c with shared_use_count_ := c.shared_use_count_ + 1 })

/-- `SharedPtr::operator=(SharedPtr&& other)`: the same body as copy assignment. -/
def SharedPtr.assign_move (thisAddr otherAddr : Nat) (this other : SharedPtr) (m : Mem) :
    Option (SharedPtr × Mem) :=
  if thisAddr = otherAddr then some (this, m)
  else
    match this.DeleteThis m with
    | none => none
    | some (_, m1) =>
      match m1.deref other.control_block_ with
      | none => none
      | some (b, c) =>
        some ({ ptr_ := other.ptr_, control_block_ := other.control_block_ },
              m1.store b { c with shared_use_count_ := c.shared_use_count_ + 1 })

/-- `SharedPtr::Reset(std::string* ptr)`. -/
def SharedPtr.Reset (this : SharedPtr) (ptr : Option Nat) (m : Mem) : Option (SharedPtr × Mem) :=
  match this.DeleteThis m with
  | none => none
  | some (_, m1) =>
    let r := m1.newBlock 1 0
    some ({ ptr_ := ptr, control_block_ := some r.1 }, r.2)

/-- `WeakPtr::WeakPtr()`. -/
def WeakPtr.ctor_default (m : Mem) : WeakPtr × Mem :=
  let r := m.newBlock 0 1
  ({ ptr_ := none, control_block_ := some r.1 }, r.2)

/-- `WeakPtr::IsExpired`. -/
def WeakPtr.IsExpired (this : WeakPtr) (m : Mem) : Option Bool :=
  match m.deref this.control_block_ with
  | none => none
  | some (_, c) => some (decide (c.shared_use_count_ = 0))

/-- `WeakPtr::Get`. -/
def WeakPtr.Get (this : WeakPtr) (m : Mem) : Option (Option Nat) :=
  match this.IsExpired m with
  | none => none
  | some true => some none
  | some false => some this.ptr_

/-- `WeakPtr::WeakPtr(const WeakPtr& other)`. -/
def WeakPtr.ctor_copy (other : WeakPtr) (m : Mem) : Option (WeakPtr × Mem) :=
  match other.IsExpired m with
  | none => none
  | some e =>
    match m.deref other.control_block_ with
    | none => none
    | some (b, c) =>
      some ({ ptr_ := if e = true then none else other.ptr_,
              control_block_ := other.control_block_ },
            m.store b { c with weak_use_count_ := c.weak_use_count_ + 1 })

/-- `WeakPtr::WeakPtr(WeakPtr&& other)`: the same body as the copy constructor. -/
def WeakPtr.ctor_move (other : WeakPtr) (m : Mem) : Option (WeakPtr × Mem) :=
  match other.IsExpired m with
  | none => none
  | some e =>
    match m.deref other.control_block_ with
    | none => none
    | some (b, c) =>
      some ({ ptr_ := if e = true then none else other.ptr_,
              control_block_ := other.control_block_ },
            m.store b { c with weak_use_count_ := c.weak_use_count_ + 1 })

/-- `WeakPtr::WeakPtr(const SharedPtr& other)`. -/
def WeakPtr.ctor_shared (other : SharedPtr) (m : Mem) : Option (WeakPtr × Mem) :=
  match m.deref other.GetCB with
  | none => none
  | some (b, c) =>
    some ({ ptr_ := other.Get, control_block_ := other.GetCB },
          m.store b { c with weak_use_count_ := c.weak_use_count_ + 1 })

/-- `WeakPtr::DeleteThis`: the fields of the object afterwards and the new memory. -/
def WeakPtr.DeleteThis (this : WeakPtr) (m : Mem) : Option (WeakPtr × Mem) :=
  match m.deref this.control_block_ with
  | none => none
  | some (b, c) =>
    if c.weak_use_count_ = 1 then
      let m1 := m.store b { c with weak_use_count_ := c.weak_use_count_ - 1 }
      if c.shared_use_count_ = 0 then some (this, m1.deleteBlock b) else some (this, m1)
    else
      some ({ ptr_ := none, control_block_ := none },
            m.store b { c with weak_use_count_ := c.weak_use_count_ - 1 })

/-- `WeakPtr::operator=(const WeakPtr& other)`. -/
def WeakPtr.assign_copy (thisAddr otherAddr : Nat) (this other : WeakPtr) (m : Mem) :
    Option (WeakPtr × Mem) :=
  if thisAddr = otherAddr then some (this, m)
  else
    match this.DeleteThis m with
    | none => none
    | some (_, m1) =>
      match other.IsExpired m1 with
      | none => none
      | some e =>
        match m1.deref other.control_block_ with
        | none => none
        | some (b, c) =>
          some ({ ptr_ := if e = true then none else other.ptr_,
                  control_block_ := other.control_block_ },
                m1.store b { c with weak_use_count_ := c.weak_use_count_ + 1 })

/-- `WeakPtr::operator=(WeakPtr&& other)`: the same body as copy assignment. -/
def WeakPtr.assign_move (thisAddr otherAddr : Nat) (this other : WeakPtr) (m : Mem) :
    Option (WeakPtr × Mem) :=
  if thisAddr = otherAddr then some (this, m)
  else
    match this.DeleteThis m with
    | none => none
    | some (_, m1) =>
      match other.IsExpired m1 with
      | none => none
      | some e =>
        match m1.deref other.control_block_ with
        | none => none
        | some (b, c) =>
          some ({ ptr_ := if e = true then none else other.ptr_,
                  control_block_ := other.control_block_ },
                m1.store b { c with weak_use_count_ := c.weak_use_count_ + 1 })

/-- `WeakPtr::Lock`.  The local `temp` is the returned object (with the copy elided; without
elision the move constructor adds one to the count and the destructor of `temp`, which then
sees a count of at least two, takes it off again). -/
def WeakPtr.Lock (this : WeakPtr) (m : Mem) : Option (SharedPtr × Mem) :=
  match this.IsExpired m with
  | none => none
  | some true => SharedPtr.ctor_pair none this.control_block_ m
  | some false => SharedPtr.ctor_pair this.ptr_ this.control_block_ m

/-- `SharedPtr::SharedPtr(const WeakPtr& other)`. -/
def SharedPtr.ctor_weak (other : WeakPtr) (m : Mem) : Option (SharedPtr × Mem) :=
  match other.Get m with
  | none => none
  | some p =>
    match other.IsExpired m with
    | none => none
    | some e =>
      match m.deref other.GetCB with
      | none => none
      | some (b, c) =>
        some ({ ptr_ := if e = true then none else p, control_block_ := other.GetCB },
              m.store b { c with shared_use_count_ := c.shared_use_count_ + 1 })

/-! ## Client programs -/

/-- The handle objects of a client program together with the free store.  A handle object
is named by its position in its table; the entry is `none` once the destructor has run. -/
structure State where
  mem : Mem
  shareds : List (Option SharedPtr)
  weaks : List (Option WeakPtr)

/-- No object, empty free store. -/
def State.init : State := { mem := Mem.empty, shareds := [], weaks := [] }

/-- The live `SharedPtr` object number `i`. -/
def State.shared (s : State) (i : Nat) : Option SharedPtr :=
  match s.shareds[i]? with
  | some (some h) => some h
  | _ => none

/-- The live `WeakPtr` object number `i`. -/
def State.weak (s : State) (i : Nat) : Option WeakPtr :=
  match s.weaks[i]? with
  | some (some h) => some h
  | _ => none

/-- A constructor has built a new `SharedPtr` object. -/
def State.pushShared (s : State) (r : SharedPtr × Mem) : State :=
  { s with mem := r.2, shareds := s.shareds ++ [some r.1] }

/-- A member function has run on the `SharedPtr` object number `i`. -/
def State.setShared (s : State) (i : Nat) (r : SharedPtr × Mem) : State :=
  { s with mem := r.2, shareds := s.shareds.set i (some r.1) }

/-- The destructor has run on the `SharedPtr` object number `i`. -/
def State.endShared (s : State) (i : Nat) (r : SharedPtr × Mem) : State :=
  { s with mem := r.2, shareds := s.shareds.set i none }

/-- A constructor has built a new `WeakPtr` object. -/
def State.pushWeak (s : State) (r : WeakPtr × Mem) : State :=
  { s with mem := r.2, weaks := s.weaks ++ [some r.1] }

/-- A member function has run on the `WeakPtr` object number `i`. -/
def State.setWeak (s : State) (i : Nat) (r : WeakPtr × Mem) : State :=
  { s with mem := r.2, weaks := s.weaks.set i (some r.1) }

/-- The destructor has run on the `WeakPtr` object number `i`. -/
def State.endWeak (s : State) (i : Nat) (r : WeakPtr × Mem) : State :=
  { s with mem := r.2, weaks := s.weaks.set i none }

/-- The operations of a client program on its handle objects, named by their numbers:
construction, copy and move construction, copy and move assignment, the two
cross-conversions, `Lock`, `Reset` and destruction.  `DeleteThis` is the release step of the
destructors, of assignment and of `Reset` and runs only inside them; the counters are
reached only through these operations. -/
inductive Op where
  /-- `SharedPtr x;` -/
  | shared_default
  /-- `SharedPtr x(ptr);` -/
  | shared_raw (ptr : Option Nat)
  /-- `SharedPtr x(other);` with `other` a `SharedPtr` -/
  | shared_copy (other : Nat)
  /-- `SharedPtr x(std::move(other));` -/
  | shared_move (other : Nat)
  /-- `SharedPtr x(other);` with `other` a `WeakPtr` -/
  | shared_weak (other : Nat)
  /-- `x = other;` on `SharedPtr` objects -/
  | shared_assign_copy (this other : Nat)
  /-- `x = std::move(other);` on `SharedPtr` objects -/
  | shared_assign_move (this other : Nat)
  /-- `x.Reset(ptr);` -/
  | shared_reset (this : Nat) (ptr : Option Nat)
  /-- the destructor of a `SharedPtr` object -/
  | shared_dtor (this : Nat)
  /-- `WeakPtr w;` -/
  | weak_default
  /-- `WeakPtr w(other);` with `other` a `WeakPtr` -/
  | weak_copy (other : Nat)
  /-- `WeakPtr w(std::move(other));` -/
  | weak_move (other : Nat)
  /-- `WeakPtr w(other);` with `other` a `SharedPtr` -/
  | weak_shared (other : Nat)
  /-- `w = other;` on `WeakPtr` objects -/
  | weak_assign_copy (this other : Nat)
  /-- `w = std::move(other);` on `WeakPtr` objects -/
  | weak_assign_move (this other : Nat)
  /-- `SharedPtr x = w.Lock();` -/
  | weak_lock (this : Nat)
  /-- the destructor of a `WeakPtr` object -/
  | weak_dtor (this : Nat)
deriving DecidableEq, Repr

/-- One public operation.  The result is `none` when an operand is not a live object or
when the member function dereferences a null or deleted control block. -/
def step (s : State) (op : Op) : Option State :=
  match op with
  | .shared_default => some (s.pushShared (SharedPtr.ctor_default s.mem))
  | .shared_raw ptr => some (s.pushShared (SharedPtr.ctor_raw ptr s.mem))
  | .shared_copy j =>
    match s.shared j with
    | none => none
    | some other => (SharedPtr.ctor_copy other s.mem).map s.pushShared
  | .shared_move j =>
    match s.shared j with
    | none => none
    | some other => (SharedPtr.ctor_move other s.mem).map s.pushShared
  | .shared_weak j =>
    match s.weak j with
    | none => none
    | some other => (SharedPtr.ctor_weak other s.mem).map s.pushShared
  | .shared_assign_copy i j =>
    match s.shared i, s.shared j with
    | some this, some other => (SharedPtr.assign_copy i j this other s.mem).map (s.setShared i)
    | _, _ => none
  | .shared_assign_move i j =>
    match s.shared i, s.shared j with
    | some this, some other => (SharedPtr.assign_move i j this other s.mem).map (s.setShared i)
    | _, _ => none
  | .shared_reset i ptr =>
    match s.shared i with
    | none => none
    | some this => (this.Reset ptr s.mem).map (s.setShared i)
  | .shared_dtor i =>
    match s.shared i with
    | none => none
    | some this => (this.DeleteThis s.mem).map (s.endShared i)
  | .weak_default => some (s.pushWeak (WeakPtr.ctor_default s.mem))
  | .weak_copy j =>
    match s.weak j with
    | none => none
    | some other => (WeakPtr.ctor_copy other s.mem).map s.pushWeak
  | .weak_move j =>
    match s.weak j with
    | none => none
    | some other => (WeakPtr.ctor_move other s.mem).map s.pushWeak
  | .weak_shared j =>
    match s.shared j with
    | none => none
    | some other => (WeakPtr.ctor_shared other s.mem).map s.pushWeak
  | .weak_assign_copy i j =>
    match s.weak i, s.weak j with
    | some this, some other => (WeakPtr.assign_copy i j this other s.mem).map (s.setWeak i)
    | _, _ => none
  | .weak_assign_move i j =>
    match s.weak i, s.weak j with
    | some this, some other => (WeakPtr.assign_move i j this other s.mem).map (s.setWeak i)
    | _, _ => none
  | .weak_lock i =>
    match s.weak i with
    | none => none
    | some this => (this.Lock s.mem).map s.pushShared
  | .weak_dtor i =>
    match s.weak i with
    | none => none
    | some this => (this.DeleteThis s.mem).map (s.endWeak i)

/-- The operands of the operation are live objects of `s`. -/
def ready (s : State) : Op → Bool
  | .shared_default => true
  | .shared_raw _ => true
  | .shared_copy j => (s.shared j).isSome
  | .shared_move j => (s.shared j).isSome
  | .shared_weak j => (s.weak j).isSome
  | .shared_assign_copy i j => (s.shared i).isSome && (s.shared j).isSome
  | .shared_assign_move i j => (s.shared i).isSome && (s.shared j).isSome
  | .shared_reset i _ => (s.shared i).isSome
  | .shared_dtor i => (s.shared i).isSome
  | .weak_default => true
  | .weak_copy j => (s.weak j).isSome
  | .weak_move j => (s.weak j).isSome
  | .weak_shared j => (s.shared j).isSome
  | .weak_assign_copy i j => (s.weak i).isSome && (s.weak j).isSome
  | .weak_assign_move i j => (s.weak i).isSome && (s.weak j).isSome
  | .weak_lock i => (s.weak i).isSome
  | .weak_dtor i => (s.weak i).isSome

/-- A sequence of public operations, run from `s`. -/
def run (s : State) : List Op → Option State
  | [] => some s
  | op :: ops =>
    match step s op with
    | none => none
    | some s1 => run s1 ops

/-- The raw values a sequence of operations hands to `SharedPtr(std::string*)` and `Reset`. -/
def rawValues : List Op → List Nat
  | [] => []
  | .shared_raw (some p) :: ops => p :: rawValues ops
  | .shared_reset _ (some p) :: ops => p :: rawValues ops
  | _ :: ops => rawValues ops

/-- The operation is a `SharedPtr` copy construction or a `SharedPtr` destruction. -/
def copyOrDtor : Op → Bool
  | .shared_copy _ => true
  | .shared_dtor _ => true
  | _ => false

/-- The number of live handles of a table whose control-block pointer is `b`. -/
def refs {H : Type} (cbOf : H → Option Nat) (t : List (Option H)) (b : Nat) : Nat :=
  t.countP fun o =>
    match o with
    | some h => decide (cbOf h = some b)
    | none => false

/-- The number of live `SharedPtr` objects on the block at `b`. -/
def State.strongOn (s : State) (b : Nat) : Nat := refs SharedPtr.control_block_ s.shareds b

/-- The number of live `WeakPtr` objects on the block at `b`. -/
def State.weakOn (s : State) (b : Nat) : Nat := refs WeakPtr.control_block_ s.weaks b

/-- The number of live `SharedPtr` objects. -/
def State.liveShared (s : State) : Nat := s.shareds.countP Option.isSome

/-- How often `delete ptr_` ran on the pointee `p`. -/
def State.timesDeleted (s : State) (p : Nat) : Nat := s.mem.deleted.count p

/-- `w.IsExpired()` on the live `WeakPtr` object number `i`. -/
def State.weakIsExpired (s : State) (i : Nat) : Option Bool :=
  match s.weak i with
  | none => none
  | some w => w.IsExpired s.mem

/-- `w.Get()` on the live `WeakPtr` object number `i`. -/
def State.weakGet (s : State) (i : Nat) : Option (Option Nat) :=
  match s.weak i with
  | none => none
  | some w => w.Get s.mem

/-- The operation is a `WeakPtr` construction, copy, move, assignment or destruction. -/
def isWeakOp : Op → Bool
  | .weak_default => true
  | .weak_copy _ => true
  | .weak_move _ => true
  | .weak_shared _ => true
  | .weak_assign_copy _ _ => true
  | .weak_assign_move _ _ => true
  | .weak_dtor _ => true
  | _ => false

/-! ## Invariants -/

/-- What the table entry `o` contributes to the count of the block at `x`. -/
def slotOn {H : Type} (cbOf : H → Option Nat) (o : Option H) (x : Nat) : Nat :=
  match o with
  | some k => if cbOf k = some x then 1 else 0
  | none => 0

/-- The free store `m` agrees with the handle counts `S` (strong) and `W` (weak): each
block stores the two counts, it is allocated exactly while one of them is positive, and
the log of block deletions lists each deleted block once. -/
structure Counted (m : Mem) (S W : Nat → Nat) : Prop where
  shared_count : ∀ b, (m.heap b).cb.shared_use_count_ = (S b : Int)
  weak_count : ∀ b, (m.heap b).cb.weak_use_count_ = (W b : Int)
  alloc : ∀ b, (m.heap b).allocated = true ↔ 0 < S b + W b
  bound : ∀ b, (m.heap b).allocated = true → b < m.next
  freed_nodup : m.freed.Nodup
  freed_iff : ∀ b, b ∈ m.freed ↔ (b < m.next ∧ (m.heap b).allocated = false)

/-- The invariant of the states a client program reaches: the free store agrees with the
live handles, and every live handle holds a non-null control-block pointer. -/
structure Inv (s : State) : Prop where
  counted : Counted s.mem s.strongOn s.weakOn
  shared_cb : ∀ (i : Nat) (h : SharedPtr), s.shareds[i]? = some (some h) →
    ∃ b, h.control_block_ = some b
  weak_cb : ∀ (i : Nat) (h : WeakPtr), s.weaks[i]? = some (some h) →
    ∃ b, h.control_block_ = some b

/-- The states of a program that builds one `SharedPtr` from the raw value `p` and then only
copies and destroys `SharedPtr` objects. -/
structure CopyInv (p : Nat) (s : State) : Prop where
  handles : ∀ (i : Nat) (h : SharedPtr), s.shareds[i]? = some (some h) →
    h = { ptr_ := some p, control_block_ := some 0 }
  alive : 1 ≤ s.liveShared →
    s.mem.heap 0 = { cb := { shared_use_count_ := s.liveShared, weak_use_count_ := 0 },
                     allocated := true } ∧
    s.mem.deleted = [] ∧ s.mem.freed = []
  dead : s.liveShared = 0 →
    s.mem.heap 0 = { cb := { shared_use_count_ := 0, weak_use_count_ := 0 },
                     allocated := false } ∧
    s.mem.deleted = [p] ∧ s.mem.freed = [0]

/-- Some live handle of `s` stores the pointee `q` together with the control-block
pointer `c`. -/
def State.holds (s : State) (q : Nat) (c : Option Nat) : Prop :=
  (∃ (i : Nat) (h : SharedPtr), s.shareds[i]? = some (some h) ∧ h.ptr_ = some q ∧
    h.control_block_ = c) ∨
  (∃ (i : Nat) (w : WeakPtr), s.weaks[i]? = some (some w) ∧ w.ptr_ = some q ∧
    w.control_block_ = c)

/-- The pointee invariant of a program that has handed the raw values `vals` to
`SharedPtr(std::string*)` and `Reset`: every pointee stored in a live handle is one of them,
and all live handles that store the same pointee are on the same control block. -/
structure PtrInv (vals : List Nat) (s : State) : Prop where
  known : ∀ q c, s.holds q c → q ∈ vals
  unique : ∀ q c c1, s.holds q c → s.holds q c1 → c = c1

/-! ## Counting invariant of the free store -/

@[simp] theorem Mem.deletePtr_heap (m : Mem) (p : Option Nat) : (m.deletePtr p).heap = m.heap := by
  cases p <;> rfl

@[simp] theorem Mem.deletePtr_next (m : Mem) (p : Option Nat) : (m.deletePtr p).next = m.next := by
  cases p <;> rfl

@[simp] theorem Mem.deletePtr_freed (m : Mem) (p : Option Nat) :
    (m.deletePtr p).freed = m.freed := by
  cases p <;> rfl

theorem counted_empty : Counted Mem.empty (fun _ => 0) (fun _ => 0) := by
  constructor <;> simp [Mem.empty]

theorem deref_of_counted {m : Mem} {S W : Nat → Nat} (hc : Counted m S W) {b : Nat}
    (hb : 0 < S b + W b) : m.deref (some b) = some (b, (m.heap b).cb) := by
  simp [Mem.deref, (hc.alloc b).2 hb]

theorem counted_newBlock {m : Mem} {S W S1 W1 : Nat → Nat} (hc : Counted m S W) (a c : Nat)
    (hac : 0 < a + c)
    (hS : ∀ x, S1 x = S x + if x = m.next then a else 0)
    (hW : ∀ x, W1 x = W x + if x = m.next then c else 0) :
    Counted (m.newBlock a c).2 S1 W1 := by
  have hfresh : (m.heap m.next).allocated = false := by
    cases h : (m.heap m.next).allocated
    · rfl
    · exact absurd (hc.bound _ h) (lt_irrefl _)
  have hz : S m.next + W m.next = 0 := by
    have := (hc.alloc m.next).not
    rw [hfresh] at this
    simp at this
    omega
  constructor
  · intro b
    by_cases hb : b = m.next
    · subst hb; simp [Mem.newBlock, hS]; omega
    · simp [Mem.newBlock, hS, hb, hc.shared_count]
  · intro b
    by_cases hb : b = m.next
    · subst hb; simp [Mem.newBlock, hW]; omega
    · simp [Mem.newBlock, hW, hb, hc.weak_count]
  · intro b
    by_cases hb : b = m.next
    · subst hb; simp [Mem.newBlock, hS, hW]; omega
    · simp [Mem.newBlock, hS, hW, hb, hc.alloc]
  · intro b
    by_cases hb : b = m.next
    · subst hb; simp [Mem.newBlock]
    · simp only [Mem.newBlock, hb, if_false]
      intro h
      exact Nat.lt_succ_of_lt (hc.bound b h)
  · exact hc.freed_nodup
  · intro b
    by_cases hb : b = m.next
    · subst hb
      simp [Mem.newBlock, hc.freed_iff]
    · simp only [Mem.newBlock, hb, if_false, hc.freed_iff]
      constructor
      · rintro ⟨h1, h2⟩; exact ⟨Nat.lt_succ_of_lt h1, h2⟩
      · rintro ⟨h1, h2⟩; exact ⟨by omega, h2⟩

/-- Adding one to the strong counter of a block that is in use, for one more strong handle. -/
theorem counted_inc_shared {m : Mem} {S W S1 : Nat → Nat} (hc : Counted m S W) (b : Nat)
    (hb : 0 < S b + W b)
    (hS : ∀ x, S1 x = S x + if x = b then 1 else 0) :
    Counted (m.store b { (m.heap b).cb with
      shared_use_count_ := (m.heap b).cb.shared_use_count_ + 1 }) S1 W := by
  constructor
  · intro x
    by_cases hx : x = b
    · subst hx; simp [Mem.store, hS, hc.shared_count]
    · simp [Mem.store, hS, hx, hc.shared_count]
  · intro x
    by_cases hx : x = b
    · subst hx; simp [Mem.store, hc.weak_count]
    · simp [Mem.store, hx, hc.weak_count]
  · intro x
    by_cases hx : x = b
    · subst hx; simp [Mem.store, hS, hc.alloc]; omega
    · simp [Mem.store, hS, hx, hc.alloc]
  · intro x
    by_cases hx : x = b
    · subst hx; simpa [Mem.store] using hc.bound x
    · simpa [Mem.store, hx] using hc.bound x
  · exact hc.freed_nodup
  · intro x
    by_cases hx : x = b
    · subst hx; simpa [Mem.store] using hc.freed_iff x
    · simpa [Mem.store, hx] using hc.freed_iff x

/-- Adding one to the weak counter of a block that is in use, for one more weak handle. -/
theorem counted_inc_weak {m : Mem} {S W W1 : Nat → Nat} (hc : Counted m S W) (b : Nat)
    (hb : 0 < S b + W b)
    (hW : ∀ x, W1 x = W x + if x = b then 1 else 0) :
    Counted (m.store b { (m.heap b).cb with
      weak_use_count_ := (m.heap b).cb.weak_use_count_ + 1 }) S W1 := by
  constructor
  · intro x
    by_cases hx : x = b
    · subst hx; simp [Mem.store, hc.shared_count]
    · simp [Mem.store, hx, hc.shared_count]
  · intro x
    by_cases hx : x = b
    · subst hx; simp [Mem.store, hW, hc.weak_count]
    · simp [Mem.store, hW, hx, hc.weak_count]
  · intro x
    by_cases hx : x = b
    · subst hx; simp [Mem.store, hW, hc.alloc]; omega
    · simp [Mem.store, hW, hx, hc.alloc]
  · intro x
    by_cases hx : x = b
    · subst hx; simpa [Mem.store] using hc.bound x
    · simpa [Mem.store, hx] using hc.bound x
  · exact hc.freed_nodup
  · intro x
    by_cases hx : x = b
    · subst hx; simpa [Mem.store] using hc.freed_iff x
    · simpa [Mem.store, hx] using hc.freed_iff x

/-- The new free store after `SharedPtr::DeleteThis` on a handle that is counted on `b`. -/
theorem counted_shared_DeleteThis {m : Mem} {S W S1 : Nat → Nat} (hc : Counted m S W)
    (this : SharedPtr) (b : Nat) (hcb : this.control_block_ = some b) (hb : 0 < S b)
    (hS : ∀ x, S1 x + (if x = b then 1 else 0) = S x) :
    ∃ r, this.DeleteThis m = some r ∧ Counted r.2 S1 W := by
  have hd : m.deref (some b) = some (b, (m.heap b).cb) := deref_of_counted hc (by omega)
  have hal : (m.heap b).allocated = true := (hc.alloc b).2 (by omega)
  have hbn : b < m.next := hc.bound b hal
  have hnf : b ∉ m.freed := by
    intro h
    have := ((hc.freed_iff b).1 h).2
    rw [hal] at this
    exact Bool.noConfusion this
  have hsb := hc.shared_count b
  have hwb := hc.weak_count b
  have hSb := hS b
  simp only [if_true] at hSb
  unfold SharedPtr.DeleteThis
  rw [hcb, hd]
  dsimp only
  by_cases h1 : (m.heap b).cb.shared_use_count_ = 1
  · by_cases h0 : (m.heap b).cb.weak_use_count_ = 0
    · refine ⟨_, by rw [if_pos h1, if_pos h0], ?_⟩
      have hS1b : S1 b = 0 := by omega
      have hWb : W b = 0 := by omega
      constructor
      · intro x
        by_cases hx : x = b
        · subst hx; simp [Mem.deleteBlock, Mem.store, h1, hS1b]
        · have hSx := hS x
          simp only [hx, if_false, Nat.add_zero] at hSx
          simp [Mem.deleteBlock, Mem.store, hx, hc.shared_count, ← hSx]
      · intro x
        by_cases hx : x = b
        · subst hx; simp [Mem.deleteBlock, Mem.store, h0, hWb]
        · simp [Mem.deleteBlock, Mem.store, hx, hc.weak_count]
      · intro x
        by_cases hx : x = b
        · subst hx; simp [Mem.deleteBlock, Mem.store, hS1b, hWb]
        · have hSx := hS x
          simp only [hx, if_false, Nat.add_zero] at hSx
          simp [Mem.deleteBlock, Mem.store, hx, hc.alloc, ← hSx]
      · intro x
        by_cases hx : x = b
        · subst hx; simp [Mem.deleteBlock, Mem.store]
        · simpa [Mem.deleteBlock, Mem.store, hx] using hc.bound x
      · simp [Mem.deleteBlock, Mem.store, List.nodup_append, hc.freed_nodup, hnf]
      · intro x
        by_cases hx : x = b
        · subst hx; simp [Mem.deleteBlock, Mem.store, hbn]
        · simp [Mem.deleteBlock, Mem.store, hx, hc.freed_iff]
    · refine ⟨_, by rw [if_pos h1, if_neg h0], ?_⟩
      have hS1b : S1 b = 0 := by omega
      have hWb : 0 < W b := by omega
      constructor
      · intro x
        by_cases hx : x = b
        · subst hx; simp [Mem.store, h1, hS1b]
        · have hSx := hS x
          simp only [hx, if_false, Nat.add_zero] at hSx
          simp [Mem.store, hx, hc.shared_count, ← hSx]
      · intro x
        by_cases hx : x = b
        · subst hx; simp [Mem.store, hc.weak_count]
        · simp [Mem.store, hx, hc.weak_count]
      · intro x
        by_cases hx : x = b
        · subst hx; simp [Mem.store, hS1b, hWb, hal]
        · have hSx := hS x
          simp only [hx, if_false, Nat.add_zero] at hSx
          simp [Mem.store, hx, hc.alloc, ← hSx]
      · intro x
        by_cases hx : x = b
        · subst hx; simp [Mem.store, hbn]
        · simpa [Mem.store, hx] using hc.bound x
      · simp [Mem.store, hc.freed_nodup]
      · intro x
        by_cases hx : x = b
        · subst hx; simp [Mem.store, hbn, hal, hnf]
        · simp [Mem.store, hx, hc.freed_iff]
  · refine ⟨_, by rw [if_neg h1], ?_⟩
    have hS1b : 0 < S1 b := by omega
    constructor
    · intro x
      by_cases hx : x = b
      · subst hx; simp [Mem.store, hsb]; omega
      · have hSx := hS x
        simp only [hx, if_false, Nat.add_zero] at hSx
        simp [Mem.store, hx, hc.shared_count, ← hSx]
    · intro x
      by_cases hx : x = b
      · subst hx; simp [Mem.store, hc.weak_count]
      · simp [Mem.store, hx, hc.weak_count]
    · intro x
      by_cases hx : x = b
      · subst hx; simp [Mem.store, hS1b, hal]
      · have hSx := hS x
        simp only [hx, if_false, Nat.add_zero] at hSx
        simp [Mem.store, hx, hc.alloc, ← hSx]
    · intro x
      by_cases hx : x = b
      · subst hx; simp [Mem.store, hbn]
      · simpa [Mem.store, hx] using hc.bound x
    · exact hc.freed_nodup
    · intro x
      by_cases hx : x = b
      · subst hx; simp [Mem.store, hbn, hal, hnf]
      · simp [Mem.store, hx, hc.freed_iff]

/-- The new free store after `WeakPtr::DeleteThis` on a handle that is counted on `b`. -/
theorem counted_weak_DeleteThis {m : Mem} {S W W1 : Nat → Nat} (hc : Counted m S W)
    (this : WeakPtr) (b : Nat) (hcb : this.control_block_ = some b) (hb : 0 < W b)
    (hW : ∀ x, W1 x + (if x = b then 1 else 0) = W x) :
    ∃ r, this.DeleteThis m = some r ∧ Counted r.2 S W1 := by
  have hd : m.deref (some b) = some (b, (m.heap b).cb) := deref_of_counted hc (by omega)
  have hal : (m.heap b).allocated = true := (hc.alloc b).2 (by omega)
  have hbn : b < m.next := hc.bound b hal
  have hnf : b ∉ m.freed := by
    intro h
    have := ((hc.freed_iff b).1 h).2
    rw [hal] at this
    exact Bool.noConfusion this
  have hsb := hc.shared_count b
  have hwb := hc.weak_count b
  have hWb := hW b
  simp only [if_true] at hWb
  unfold WeakPtr.DeleteThis
  rw [hcb, hd]
  dsimp only
  by_cases h1 : (m.heap b).cb.weak_use_count_ = 1
  · by_cases h0 : (m.heap b).cb.shared_use_count_ = 0
    · refine ⟨_, by rw [if_pos h1, if_pos h0], ?_⟩
      have hW1b : W1 b = 0 := by omega
      have hSb : S b = 0 := by omega
      constructor
      · intro x
        by_cases hx : x = b
        · subst hx; simp [Mem.deleteBlock, Mem.store, h0, hSb]
        · simp [Mem.deleteBlock, Mem.store, hx, hc.shared_count]
      · intro x
        by_cases hx : x = b
        · subst hx; simp [Mem.deleteBlock, Mem.store, h1, hW1b]
        · have hWx := hW x
          simp only [hx, if_false, Nat.add_zero] at hWx
          simp [Mem.deleteBlock, Mem.store, hx, hc.weak_count, ← hWx]
      · intro x
        by_cases hx : x = b
        · subst hx; simp [Mem.deleteBlock, Mem.store, hW1b, hSb]
        · have hWx := hW x
          simp only [hx, if_false, Nat.add_zero] at hWx
          simp [Mem.deleteBlock, Mem.store, hx, hc.alloc, ← hWx]
      · intro x
        by_cases hx : x = b
        · subst hx; simp [Mem.deleteBlock, Mem.store]
        · simpa [Mem.deleteBlock, Mem.store, hx] using hc.bound x
      · simp [Mem.deleteBlock, Mem.store, List.nodup_append, hc.freed_nodup, hnf]
      · intro x
        by_cases hx : x = b
        · subst hx; simp [Mem.deleteBlock, Mem.store, hbn]
        · simp [Mem.deleteBlock, Mem.store, hx, hc.freed_iff]
    · refine ⟨_, by rw [if_pos h1, if_neg h0], ?_⟩
      have hW1b : W1 b = 0 := by omega
      have hSb : 0 < S b := by omega
      constructor
      · intro x
        by_cases hx : x = b
        · subst hx; simp [Mem.store, hc.shared_count]
        · simp [Mem.store, hx, hc.shared_count]
      · intro x
        by_cases hx : x = b
        · subst hx; simp [Mem.store, h1, hW1b]
        · have hWx := hW x
          simp only [hx, if_false, Nat.add_zero] at hWx
          simp [Mem.store, hx, hc.weak_count, ← hWx]
      · intro x
        by_cases hx : x = b
        · subst hx; simp [Mem.store, hW1b, hSb, hal]
        · have hWx := hW x
          simp only [hx, if_false, Nat.add_zero] at hWx
          simp [Mem.store, hx, hc.alloc, ← hWx]
      · intro x
        by_cases hx : x = b
        · subst hx; simp [Mem.store, hbn]
        · simpa [Mem.store, hx] using hc.bound x
      · simp [Mem.store, hc.freed_nodup]
      · intro x
        by_cases hx : x = b
        · subst hx; simp [Mem.store, hbn, hal, hnf]
        · simp [Mem.store, hx, hc.freed_iff]
  · refine ⟨_, by rw [if_neg h1], ?_⟩
    have hW1b : 0 < W1 b := by omega
    constructor
    · intro x
      by_cases hx : x = b
      · subst hx; simp [Mem.store, hc.shared_count]
      · simp [Mem.store, hx, hc.shared_count]
    · intro x
      by_cases hx : x = b
      · subst hx; simp [Mem.store, hwb]; omega
      · have hWx := hW x
        simp only [hx, if_false, Nat.add_zero] at hWx
        simp [Mem.store, hx, hc.weak_count, ← hWx]
    · intro x
      by_cases hx : x = b
      · subst hx; simp [Mem.store, hW1b, hal]
      · have hWx := hW x
        simp only [hx, if_false, Nat.add_zero] at hWx
        simp [Mem.store, hx, hc.alloc, ← hWx]
    · intro x
      by_cases hx : x = b
      · subst hx; simp [Mem.store, hbn]
      · simpa [Mem.store, hx] using hc.bound x
    · exact hc.freed_nodup
    · intro x
      by_cases hx : x = b
      · subst hx; simp [Mem.store, hbn, hal, hnf]
      · simp [Mem.store, hx, hc.freed_iff]

/-! ## Handle tables -/

theorem refs_push {H : Type} (cbOf : H → Option Nat) (t : List (Option H)) (h : H) (x : Nat) :
    refs cbOf (t ++ [some h]) x = refs cbOf t x + if cbOf h = some x then 1 else 0 := by
  simp [refs, List.countP_append, List.countP_cons]

theorem refs_set {H : Type} (cbOf : H → Option Nat) (t : List (Option H)) (i : Nat)
    (o0 o : Option H) (hi : t[i]? = some o0) (x : Nat) :
    refs cbOf (t.set i o) x + slotOn cbOf o0 x = refs cbOf t x + slotOn cbOf o x := by
  obtain ⟨hlt, hget⟩ := List.getElem?_eq_some.1 hi
  have hle := List.boole_getElem_le_countP (fun o : Option H =>
    match o with
    | some h => decide (cbOf h = some x)
    | none => false) t i hlt
  unfold refs
  rw [List.countP_set _ _ _ _ hlt]
  rw [hget] at hle ⊢
  cases o0 <;> cases o <;> simp [slotOn] at hle ⊢ <;> omega

theorem refs_pos {H : Type} (cbOf : H → Option Nat) (t : List (Option H)) (i : Nat) (h : H)
    (hi : t[i]? = some (some h)) (x : Nat) (hx : cbOf h = some x) : 0 < refs cbOf t x := by
  obtain ⟨hlt, hget⟩ := List.getElem?_eq_some.1 hi
  have hle := List.boole_getElem_le_countP (fun o : Option H =>
    match o with
    | some h => decide (cbOf h = some x)
    | none => false) t i hlt
  rw [hget] at hle
  have h1 : (if decide (cbOf h = some x) = true then 1 else 0) = 1 := by simp [hx]
  dsimp only at hle
  rw [h1] at hle
  exact hle

theorem live_push {H : Type} (t : List (Option H)) (k : H) (j : Nat) (h : H)
    (hj : (t ++ [some k])[j]? = some (some h)) : t[j]? = some (some h) ∨ h = k := by
  rw [List.getElem?_append] at hj
  split at hj
  · exact Or.inl hj
  · right
    cases hjl : j - t.length with
    | zero => rw [hjl] at hj; simpa using hj.symm
    | succ n => rw [hjl] at hj; simp at hj

theorem live_set {H : Type} (t : List (Option H)) (i : Nat) (o : Option H) (j : Nat) (h : H)
    (hj : (t.set i o)[j]? = some (some h)) : t[j]? = some (some h) ∨ o = some h := by
  rw [List.getElem?_set] at hj
  split at hj
  · split at hj
    · right; simpa using hj
    · exact absurd hj (by simp)
  · exact Or.inl hj

theorem State.shared_eq_some (s : State) (i : Nat) (h : SharedPtr) :
    s.shared i = some h ↔ s.shareds[i]? = some (some h) := by
  unfold State.shared
  split
  · next k hk => rw [hk]; simp
  · next hk =>
    constructor
    · intro h0; exact absurd h0 (by simp)
    · intro h0; exact absurd h0 (hk h)

theorem State.weak_eq_some (s : State) (i : Nat) (h : WeakPtr) :
    s.weak i = some h ↔ s.weaks[i]? = some (some h) := by
  unfold State.weak
  split
  · next k hk => rw [hk]; simp
  · next hk =>
    constructor
    · intro h0; exact absurd h0 (by simp)
    · intro h0; exact absurd h0 (hk h)

/-! ## The invariant of client states -/

theorem inv_init : Inv State.init := by
  refine ⟨?_, ?_, ?_⟩
  · exact counted_empty
  · intro i h hi; simp [State.init] at hi
  · intro i h hi; simp [State.init] at hi

/-- A new strong handle on a new block `(1, 0)`, built into the table slot that turns the
table `s.shareds` into `t`. -/
theorem inv_new_shared {s : State} (hs : Inv s) (ptr : Option Nat) (t : List (Option SharedPtr))
    (hrefs : ∀ x, refs SharedPtr.control_block_ t x =
      s.strongOn x + if x = s.mem.next then 1 else 0)
    (hlive : ∀ (j : Nat) (h : _), t[j]? = some (some h) →
      s.shareds[j]? = some (some h) ∨ h = (SharedPtr.ctor_raw ptr s.mem).1) :
    Inv { mem := (SharedPtr.ctor_raw ptr s.mem).2, shareds := t, weaks := s.weaks } := by
  refine ⟨?_, ?_, hs.weak_cb⟩
  · exact counted_newBlock hs.counted 1 0 (by omega) (fun x => by simpa using hrefs x)
      (fun x => by simp [State.weakOn])
  · intro j h hj
    rcases hlive j h hj with h1 | h1
    · exact hs.shared_cb j h h1
    · exact ⟨s.mem.next, by rw [h1]; rfl⟩

/-- A new weak handle on a new block `(0, 1)`. -/
theorem inv_new_weak {s : State} (hs : Inv s) (t : List (Option WeakPtr))
    (hrefs : ∀ x, refs WeakPtr.control_block_ t x =
      s.weakOn x + if x = s.mem.next then 1 else 0)
    (hlive : ∀ (j : Nat) (h : _), t[j]? = some (some h) →
      s.weaks[j]? = some (some h) ∨ h = (WeakPtr.ctor_default s.mem).1) :
    Inv { mem := (WeakPtr.ctor_default s.mem).2, shareds := s.shareds, weaks := t } := by
  refine ⟨?_, hs.shared_cb, ?_⟩
  · exact counted_newBlock hs.counted 0 1 (by omega) (fun x => by simp [State.strongOn])
      (fun x => by simpa using hrefs x)
  · intro j h hj
    rcases hlive j h hj with h1 | h1
    · exact hs.weak_cb j h h1
    · exact ⟨s.mem.next, by rw [h1]; rfl⟩

/-- One more strong handle `k` on the block at `b`, which is in use. -/
theorem inv_inc_shared {s : State} (hs : Inv s) (k : SharedPtr) (b : Nat)
    (hk : k.control_block_ = some b) (hb : 0 < s.strongOn b + s.weakOn b)
    (t : List (Option SharedPtr))
    (hrefs : ∀ x, refs SharedPtr.control_block_ t x = s.strongOn x + if x = b then 1 else 0)
    (hlive : ∀ (j : Nat) (h : _), t[j]? = some (some h) → s.shareds[j]? = some (some h) ∨ h = k) :
    Inv { mem := s.mem.store b { (s.mem.heap b).cb with
            shared_use_count_ := (s.mem.heap b).cb.shared_use_count_ + 1 }
          shareds := t, weaks := s.weaks } := by
  refine ⟨?_, ?_, hs.weak_cb⟩
  · exact counted_inc_shared hs.counted b hb hrefs
  · intro j h hj
    rcases hlive j h hj with h1 | h1
    · exact hs.shared_cb j h h1
    · exact ⟨b, by rw [h1]; exact hk⟩

/-- One more weak handle `k` on the block at `b`, which is in use. -/
theorem inv_inc_weak {s : State} (hs : Inv s) (k : WeakPtr) (b : Nat)
    (hk : k.control_block_ = some b) (hb : 0 < s.strongOn b + s.weakOn b)
    (t : List (Option WeakPtr))
    (hrefs : ∀ x, refs WeakPtr.control_block_ t x = s.weakOn x + if x = b then 1 else 0)
    (hlive : ∀ (j : Nat) (h : _), t[j]? = some (some h) → s.weaks[j]? = some (some h) ∨ h = k) :
    Inv { mem := s.mem.store b { (s.mem.heap b).cb with
            weak_use_count_ := (s.mem.heap b).cb.weak_use_count_ + 1 }
          shareds := s.shareds, weaks := t } := by
  refine ⟨?_, hs.shared_cb, ?_⟩
  · exact counted_inc_weak hs.counted b hb hrefs
  · intro j h hj
    rcases hlive j h hj with h1 | h1
    · exact hs.weak_cb j h h1
    · exact ⟨b, by rw [h1]; exact hk⟩

/-- The destructor of a live strong handle: `DeleteThis` returns and the invariant holds
of the state without the handle. -/
theorem inv_end_shared {s : State} (hs : Inv s) (i : Nat) (this : SharedPtr)
    (hi : s.shareds[i]? = some (some this)) :
    ∃ r, this.DeleteThis s.mem = some r ∧ Inv (s.endShared i r) := by
  obtain ⟨b, hb⟩ := hs.shared_cb i this hi
  have hpos : 0 < s.strongOn b := refs_pos _ _ i this hi b hb
  have hrefs : ∀ x, refs SharedPtr.control_block_ (s.shareds.set i none) x +
      (if x = b then 1 else 0) = s.strongOn x := by
    intro x
    have := refs_set SharedPtr.control_block_ s.shareds i (some this) none hi x
    simp only [slotOn, hb, Option.some.injEq] at this
    simp only [State.strongOn, eq_comm (a := x)]
    omega
  obtain ⟨r, hr, hc⟩ := counted_shared_DeleteThis hs.counted this b hb hpos hrefs
  refine ⟨r, hr, hc, ?_, hs.weak_cb⟩
  intro j h hj
  rcases live_set _ _ _ _ _ hj with h1 | h1
  · exact hs.shared_cb j h h1
  · exact absurd h1 (by simp)

/-- The destructor of a live weak handle. -/
theorem inv_end_weak {s : State} (hs : Inv s) (i : Nat) (this : WeakPtr)
    (hi : s.weaks[i]? = some (some this)) :
    ∃ r, this.DeleteThis s.mem = some r ∧ Inv (s.endWeak i r) := by
  obtain ⟨b, hb⟩ := hs.weak_cb i this hi
  have hpos : 0 < s.weakOn b := refs_pos _ _ i this hi b hb
  have hrefs : ∀ x, refs WeakPtr.control_block_ (s.weaks.set i none) x +
      (if x = b then 1 else 0) = s.weakOn x := by
    intro x
    have := refs_set WeakPtr.control_block_ s.weaks i (some this) none hi x
    simp only [slotOn, hb, Option.some.injEq] at this
    simp only [State.weakOn, eq_comm (a := x)]
    omega
  obtain ⟨r, hr, hc⟩ := counted_weak_DeleteThis hs.counted this b hb hpos hrefs
  refine ⟨r, hr, hc, hs.shared_cb, ?_⟩
  intro j h hj
  rcases live_set _ _ _ _ _ hj with h1 | h1
  · exact hs.weak_cb j h h1
  · exact absurd h1 (by simp)

theorem set_same {α : Type} (t : List α) (i : Nat) (a : α) (h : t[i]? = some a) :
    t.set i a = t := by
  apply List.ext_getElem?
  intro j
  rw [List.getElem?_set]
  split
  · next hij =>
    subst hij
    split
    · exact h.symm
    · next hlt => rw [List.getElem?_eq_none (by omega)]
  · rfl

theorem deref_live_shared {s : State} (hs : Inv s) {i : Nat} {h : SharedPtr}
    (hi : s.shareds[i]? = some (some h)) :
    ∃ b, h.control_block_ = some b ∧ 0 < s.strongOn b ∧
      s.mem.deref h.control_block_ = some (b, (s.mem.heap b).cb) := by
  obtain ⟨b, hb⟩ := hs.shared_cb i h hi
  have hpos : 0 < s.strongOn b := refs_pos _ _ i h hi b hb
  exact ⟨b, hb, hpos, by rw [hb]; exact deref_of_counted hs.counted (by omega)⟩

theorem deref_live_weak {s : State} (hs : Inv s) {i : Nat} {h : WeakPtr}
    (hi : s.weaks[i]? = some (some h)) :
    ∃ b, h.control_block_ = some b ∧ 0 < s.weakOn b ∧
      s.mem.deref h.control_block_ = some (b, (s.mem.heap b).cb) := by
  obtain ⟨b, hb⟩ := hs.weak_cb i h hi
  have hpos : 0 < s.weakOn b := refs_pos _ _ i h hi b hb
  exact ⟨b, hb, hpos, by rw [hb]; exact deref_of_counted hs.counted (by omega)⟩

/-- A constructor that adds one to the strong counter of a block in use. -/
theorem inv_push_pair {s : State} (hs : Inv s) (ptr cb : Option Nat) (b : Nat)
    (hcb : cb = some b) (hb : 0 < s.strongOn b + s.weakOn b) :
    ∃ r, SharedPtr.ctor_pair ptr cb s.mem = some r ∧ Inv (s.pushShared r) := by
  subst hcb
  refine ⟨_, by rw [SharedPtr.ctor_pair, deref_of_counted hs.counted hb], ?_⟩
  refine inv_inc_shared hs { ptr_ := ptr, control_block_ := some b } b rfl hb _ ?_ ?_
  · intro x
    rw [refs_push]
    simp [State.strongOn, eq_comm]
  · intro j h hj
    exact live_push _ _ _ _ hj

/-- `WeakPtr::Lock` and `SharedPtr(const WeakPtr&)` are `SharedPtr(ptr, control_block)` at
a pointer that depends on the strong count alone. -/
theorem Lock_eq_pair (w : WeakPtr) (m : Mem) :
    w.Lock m = SharedPtr.ctor_pair
      (if w.IsExpired m = some true then none else w.ptr_) w.control_block_ m := by
  unfold WeakPtr.Lock WeakPtr.IsExpired SharedPtr.ctor_pair
  cases hd : m.deref w.control_block_ with
  | none => rfl
  | some bc =>
    obtain ⟨b, c⟩ := bc
    by_cases h0 : c.shared_use_count_ = 0 <;> simp [h0, hd]

theorem ctor_weak_eq_pair (w : WeakPtr) (m : Mem) :
    SharedPtr.ctor_weak w m = SharedPtr.ctor_pair
      (if w.IsExpired m = some true then none else w.ptr_) w.control_block_ m := by
  unfold SharedPtr.ctor_weak WeakPtr.Get WeakPtr.IsExpired SharedPtr.ctor_pair WeakPtr.GetCB
  cases hd : m.deref w.control_block_ with
  | none => rfl
  | some bc =>
    obtain ⟨b, c⟩ := bc
    by_cases h0 : c.shared_use_count_ = 0 <;> simp [h0]

/-- A constructor that adds one to the weak counter of a block in use. -/
theorem inv_push_weak {s : State} (hs : Inv s) (ptr : Option Nat) (b : Nat)
    (hb : 0 < s.strongOn b + s.weakOn b) :
    Inv (s.pushWeak ({ ptr_ := ptr, control_block_ := some b },
      s.mem.store b { (s.mem.heap b).cb with
        weak_use_count_ := (s.mem.heap b).cb.weak_use_count_ + 1 })) := by
  refine inv_inc_weak hs { ptr_ := ptr, control_block_ := some b } b rfl hb _ ?_ ?_
  · intro x
    rw [refs_push]
    simp [State.weakOn, eq_comm]
  · intro j h hj
    exact live_push _ _ _ _ hj

theorem WeakPtr.ctor_copy_eq (w : WeakPtr) (m : Mem) (b : Nat) (c : ControlBlock)
    (hd : m.deref w.control_block_ = some (b, c)) :
    WeakPtr.ctor_copy w m =
      some ({ ptr_ := if c.shared_use_count_ = 0 then none else w.ptr_,
              control_block_ := w.control_block_ },
            m.store b { c with weak_use_count_ := c.weak_use_count_ + 1 }) := by
  unfold WeakPtr.ctor_copy WeakPtr.IsExpired
  simp [hd]

theorem refs_fill {H : Type} (cbOf : H → Option Nat) (t : List (Option H)) (i : Nat) (k : H)
    (b : Nat) (hk : cbOf k = some b) (hi : t[i]? = some none) (x : Nat) :
    refs cbOf (t.set i (some k)) x = refs cbOf t x + if x = b then 1 else 0 := by
  have := refs_set cbOf t i none (some k) hi x
  simp only [slotOn, hk, Option.some.injEq, Nat.add_zero] at this
  simp only [eq_comm (a := x)]
  exact this

theorem live_fill {H : Type} (t : List (Option H)) (i : Nat) (k : H) (j : Nat) (h : H)
    (hj : (t.set i (some k))[j]? = some (some h)) : t[j]? = some (some h) ∨ h = k := by
  rcases live_set _ _ _ _ _ hj with h1 | h1
  · exact Or.inl h1
  · exact Or.inr (by simpa using h1.symm)

/-- `SharedPtr(ptr, control_block)` built into the dead slot `i`. -/
theorem inv_fill_pair {s : State} (hs : Inv s) (i : Nat) (hi : s.shareds[i]? = some none)
    (ptr cb : Option Nat) (b : Nat) (hcb : cb = some b) (hb : 0 < s.strongOn b + s.weakOn b) :
    ∃ r, SharedPtr.ctor_pair ptr cb s.mem = some r ∧ Inv (s.setShared i r) := by
  subst hcb
  refine ⟨_, by rw [SharedPtr.ctor_pair, deref_of_counted hs.counted hb], ?_⟩
  exact inv_inc_shared hs { ptr_ := ptr, control_block_ := some b } b rfl hb _
    (fun x => refs_fill SharedPtr.control_block_ s.shareds i _ b rfl hi x)
    (fun _ _ hj => live_fill _ _ _ _ _ hj)

/-- `SharedPtr(ptr)` built into the dead slot `i`. -/
theorem inv_fill_raw {s : State} (hs : Inv s) (i : Nat) (hi : s.shareds[i]? = some none)
    (ptr : Option Nat) : Inv (s.setShared i (SharedPtr.ctor_raw ptr s.mem)) :=
  inv_new_shared hs ptr _
    (fun x => refs_fill SharedPtr.control_block_ s.shareds i _ s.mem.next rfl hi x)
    (fun _ _ hj => live_fill _ _ _ _ _ hj)

/-- A weak handle on the block at `b`, which is in use, built into the dead slot `i`. -/
theorem inv_fill_weak {s : State} (hs : Inv s) (i : Nat) (hi : s.weaks[i]? = some none)
    (ptr : Option Nat) (b : Nat) (hb : 0 < s.strongOn b + s.weakOn b) :
    Inv (s.setWeak i ({ ptr_ := ptr, control_block_ := some b },
      s.mem.store b { (s.mem.heap b).cb with
        weak_use_count_ := (s.mem.heap b).cb.weak_use_count_ + 1 })) :=
  inv_inc_weak hs { ptr_ := ptr, control_block_ := some b } b rfl hb _
    (fun x => refs_fill WeakPtr.control_block_ s.weaks i _ b rfl hi x)
    (fun _ _ hj => live_fill _ _ _ _ _ hj)

theorem endShared_slot (s : State) (i : Nat) (r : SharedPtr × Mem) (o : Option SharedPtr)
    (hi : s.shareds[i]? = some o) : (s.endShared i r).shareds[i]? = some none := by
  have hlt := (List.getElem?_eq_some.1 hi).1
  simp [State.endShared, List.getElem?_set_self hlt]

theorem endWeak_slot (s : State) (i : Nat) (r : WeakPtr × Mem) (o : Option WeakPtr)
    (hi : s.weaks[i]? = some o) : (s.endWeak i r).weaks[i]? = some none := by
  have hlt := (List.getElem?_eq_some.1 hi).1
  simp [State.endWeak, List.getElem?_set_self hlt]

theorem setShared_endShared (s : State) (i : Nat) (r1 r : SharedPtr × Mem) :
    (s.endShared i r1).setShared i r = s.setShared i r := by
  simp [State.endShared, State.setShared, List.set_set]

theorem setWeak_endWeak (s : State) (i : Nat) (r1 r : WeakPtr × Mem) :
    (s.endWeak i r1).setWeak i r = s.setWeak i r := by
  simp [State.endWeak, State.setWeak, List.set_set]

/-- `SharedPtr::operator=` on two live handles. -/
theorem inv_assign_shared {s : State} (hs : Inv s) (i j : Nat) (this other : SharedPtr)
    (hi : s.shareds[i]? = some (some this)) (hj : s.shareds[j]? = some (some other)) :
    ∃ r, SharedPtr.assign_copy i j this other s.mem = some r ∧ Inv (s.setShared i r) := by
  by_cases hij : i = j
  · refine ⟨(this, s.mem), by simp [SharedPtr.assign_copy, hij], ?_⟩
    have : s.setShared i (this, s.mem) = s := by
      simp [State.setShared, set_same _ _ _ hi]
    rw [this]
    exact hs
  · obtain ⟨r1, hr1, hs1⟩ := inv_end_shared hs i this hi
    have hj1 : (s.endShared i r1).shareds[j]? = some (some other) := by
      simpa [State.endShared, List.getElem?_set_ne hij] using hj
    obtain ⟨b, hb, hpos, _⟩ := deref_live_shared hs1 hj1
    obtain ⟨r, hr, hinv⟩ := inv_fill_pair hs1 i (endShared_slot s i r1 _ hi) other.ptr_
      other.control_block_ b hb (by omega)
    refine ⟨r, ?_, by rw [← setShared_endShared s i r1 r]; exact hinv⟩
    unfold SharedPtr.assign_copy
    rw [if_neg hij, hr1]
    exact hr

/-- `SharedPtr::Reset` on a live handle. -/
theorem inv_reset_shared {s : State} (hs : Inv s) (i : Nat) (this : SharedPtr)
    (ptr : Option Nat) (hi : s.shareds[i]? = some (some this)) :
    ∃ r, this.Reset ptr s.mem = some r ∧ Inv (s.setShared i r) := by
  obtain ⟨r1, hr1, hs1⟩ := inv_end_shared hs i this hi
  have hinv := inv_fill_raw hs1 i (endShared_slot s i r1 _ hi) ptr
  refine ⟨_, ?_, by rw [← setShared_endShared s i r1]; exact hinv⟩
  unfold SharedPtr.Reset
  rw [hr1]
  rfl

/-- `WeakPtr::operator=` on two live handles. -/
theorem inv_assign_weak {s : State} (hs : Inv s) (i j : Nat) (this other : WeakPtr)
    (hi : s.weaks[i]? = some (some this)) (hj : s.weaks[j]? = some (some other)) :
    ∃ r, WeakPtr.assign_copy i j this other s.mem = some r ∧ Inv (s.setWeak i r) := by
  by_cases hij : i = j
  · refine ⟨(this, s.mem), by simp [WeakPtr.assign_copy, hij], ?_⟩
    have : s.setWeak i (this, s.mem) = s := by
      simp [State.setWeak, set_same _ _ _ hi]
    rw [this]
    exact hs
  · obtain ⟨r1, hr1, hs1⟩ := inv_end_weak hs i this hi
    have hj1 : (s.endWeak i r1).weaks[j]? = some (some other) := by
      simpa [State.endWeak, List.getElem?_set_ne hij] using hj
    obtain ⟨b, hb, hpos, hd⟩ := deref_live_weak hs1 hj1
    have hinv := inv_fill_weak hs1 i (endWeak_slot s i r1 _ hi)
      (if ((s.endWeak i r1).mem.heap b).cb.shared_use_count_ = 0 then none else other.ptr_) b
      (by omega)
    rw [setWeak_endWeak] at hinv
    refine ⟨_, ?_, hinv⟩
    unfold WeakPtr.assign_copy WeakPtr.IsExpired
    rw [if_neg hij, hr1]
    have hd1 : r1.2.deref other.control_block_ = some (b, (r1.2.heap b).cb) := hd
    rw [hb] at hd1
    simp [hd1, hb, State.endWeak]

theorem shared_of_isSome (s : State) (i : Nat) (h : (s.shared i).isSome = true) :
    ∃ k, s.shared i = some k ∧ s.shareds[i]? = some (some k) := by
  obtain ⟨k, hk⟩ := Option.isSome_iff_exists.1 h
  exact ⟨k, hk, (s.shared_eq_some i k).1 hk⟩

theorem weak_of_isSome (s : State) (i : Nat) (h : (s.weak i).isSome = true) :
    ∃ k, s.weak i = some k ∧ s.weaks[i]? = some (some k) := by
  obtain ⟨k, hk⟩ := Option.isSome_iff_exists.1 h
  exact ⟨k, hk, (s.weak_eq_some i k).1 hk⟩

/-- Every public operation on live objects returns, and keeps the invariant. -/
theorem step_inv {s : State} (hs : Inv s) (op : Op) (hr : ready s op = true) :
    ∃ s1, step s op = some s1 ∧ Inv s1 := by
  cases op with
  | shared_default =>
    exact ⟨_, rfl, inv_new_shared hs none _ (fun x => by
      rw [refs_push]; simp [State.strongOn, SharedPtr.ctor_default, Mem.newBlock, eq_comm])
      (fun _ _ hj => live_push _ _ _ _ hj)⟩
  | shared_raw ptr =>
    exact ⟨_, rfl, inv_new_shared hs ptr _ (fun x => by
      rw [refs_push]; simp [State.strongOn, SharedPtr.ctor_raw, Mem.newBlock, eq_comm])
      (fun _ _ hj => live_push _ _ _ _ hj)⟩
  | shared_copy j =>
    obtain ⟨other, ho, hj⟩ := shared_of_isSome s j hr
    obtain ⟨b, hb, hpos, _⟩ := deref_live_shared hs hj
    obtain ⟨r, hr1, hinv⟩ := inv_push_pair hs other.ptr_ other.control_block_ b hb (by omega)
    refine ⟨s.pushShared r, ?_, hinv⟩
    have : SharedPtr.ctor_copy other s.mem = some r := hr1
    simp [step, ho, this]
  | shared_move j =>
    obtain ⟨other, ho, hj⟩ := shared_of_isSome s j hr
    obtain ⟨b, hb, hpos, _⟩ := deref_live_shared hs hj
    obtain ⟨r, hr1, hinv⟩ := inv_push_pair hs other.ptr_ other.control_block_ b hb (by omega)
    refine ⟨s.pushShared r, ?_, hinv⟩
    have : SharedPtr.ctor_move other s.mem = some r := hr1
    simp [step, ho, this]
  | shared_weak j =>
    obtain ⟨other, ho, hj⟩ := weak_of_isSome s j hr
    obtain ⟨b, hb, hpos, _⟩ := deref_live_weak hs hj
    obtain ⟨r, hr1, hinv⟩ := inv_push_pair hs
      (if other.IsExpired s.mem = some true then none else other.ptr_)
      other.control_block_ b hb (by omega)
    refine ⟨s.pushShared r, ?_, hinv⟩
    rw [← ctor_weak_eq_pair] at hr1
    simp [step, ho, hr1]
  | shared_assign_copy i j =>
    simp only [ready, Bool.and_eq_true] at hr
    obtain ⟨this, ht, hi⟩ := shared_of_isSome s i hr.1
    obtain ⟨other, ho, hj⟩ := shared_of_isSome s j hr.2
    obtain ⟨r, hr1, hinv⟩ := inv_assign_shared hs i j this other hi hj
    exact ⟨s.setShared i r, by simp [step, ht, ho, hr1], hinv⟩
  | shared_assign_move i j =>
    simp only [ready, Bool.and_eq_true] at hr
    obtain ⟨this, ht, hi⟩ := shared_of_isSome s i hr.1
    obtain ⟨other, ho, hj⟩ := shared_of_isSome s j hr.2
    obtain ⟨r, hr1, hinv⟩ := inv_assign_shared hs i j this other hi hj
    have : SharedPtr.assign_move i j this other s.mem = some r := hr1
    exact ⟨s.setShared i r, by simp [step, ht, ho, this], hinv⟩
  | shared_reset i ptr =>
    obtain ⟨this, ht, hi⟩ := shared_of_isSome s i hr
    obtain ⟨r, hr1, hinv⟩ := inv_reset_shared hs i this ptr hi
    exact ⟨s.setShared i r, by simp [step, ht, hr1], hinv⟩
  | shared_dtor i =>
    obtain ⟨this, ht, hi⟩ := shared_of_isSome s i hr
    obtain ⟨r, hr1, hinv⟩ := inv_end_shared hs i this hi
    exact ⟨s.endShared i r, by simp [step, ht, hr1], hinv⟩
  | weak_default =>
    exact ⟨_, rfl, inv_new_weak hs _ (fun x => by
      rw [refs_push]; simp [State.weakOn, WeakPtr.ctor_default, Mem.newBlock, eq_comm])
      (fun _ _ hj => live_push _ _ _ _ hj)⟩
  | weak_copy j =>
    obtain ⟨other, ho, hj⟩ := weak_of_isSome s j hr
    obtain ⟨b, hb, hpos, hd⟩ := deref_live_weak hs hj
    have hinv := inv_push_weak hs
      (if (s.mem.heap b).cb.shared_use_count_ = 0 then none else other.ptr_) b (by omega)
    refine ⟨_, ?_, hinv⟩
    simp [step, ho, WeakPtr.ctor_copy_eq other s.mem b _ hd, hb]
  | weak_move j =>
    obtain ⟨other, ho, hj⟩ := weak_of_isSome s j hr
    obtain ⟨b, hb, hpos, hd⟩ := deref_live_weak hs hj
    have hinv := inv_push_weak hs
      (if (s.mem.heap b).cb.shared_use_count_ = 0 then none else other.ptr_) b (by omega)
    refine ⟨_, ?_, hinv⟩
    have : WeakPtr.ctor_move other s.mem = WeakPtr.ctor_copy other s.mem := rfl
    simp [step, ho, this, WeakPtr.ctor_copy_eq other s.mem b _ hd, hb]
  | weak_shared j =>
    obtain ⟨other, ho, hj⟩ := shared_of_isSome s j hr
    obtain ⟨b, hb, hpos, hd⟩ := deref_live_shared hs hj
    have hinv := inv_push_weak hs other.ptr_ b (by omega)
    refine ⟨_, ?_, hinv⟩
    rw [hb] at hd
    simp [step, ho, WeakPtr.ctor_shared, SharedPtr.GetCB, SharedPtr.Get, hd, hb]
  | weak_assign_copy i j =>
    simp only [ready, Bool.and_eq_true] at hr
    obtain ⟨this, ht, hi⟩ := weak_of_isSome s i hr.1
    obtain ⟨other, ho, hj⟩ := weak_of_isSome s j hr.2
    obtain ⟨r, hr1, hinv⟩ := inv_assign_weak hs i j this other hi hj
    exact ⟨s.setWeak i r, by simp [step, ht, ho, hr1], hinv⟩
  | weak_assign_move i j =>
    simp only [ready, Bool.and_eq_true] at hr
    obtain ⟨this, ht, hi⟩ := weak_of_isSome s i hr.1
    obtain ⟨other, ho, hj⟩ := weak_of_isSome s j hr.2
    obtain ⟨r, hr1, hinv⟩ := inv_assign_weak hs i j this other hi hj
    have : WeakPtr.assign_move i j this other s.mem = some r := hr1
    exact ⟨s.setWeak i r, by simp [step, ht, ho, this], hinv⟩
  | weak_lock i =>
    obtain ⟨this, ht, hi⟩ := weak_of_isSome s i hr
    obtain ⟨b, hb, hpos, _⟩ := deref_live_weak hs hi
    obtain ⟨r, hr1, hinv⟩ := inv_push_pair hs
      (if this.IsExpired s.mem = some true then none else this.ptr_)
      this.control_block_ b hb (by omega)
    refine ⟨s.pushShared r, ?_, hinv⟩
    rw [← Lock_eq_pair] at hr1
    simp [step, ht, hr1]
  | weak_dtor i =>
    obtain ⟨this, ht, hi⟩ := weak_of_isSome s i hr
    obtain ⟨r, hr1, hinv⟩ := inv_end_weak hs i this hi
    exact ⟨s.endWeak i r, by simp [step, ht, hr1], hinv⟩

/-- An operation that returns had live operands. -/
theorem ready_of_step {s s1 : State} {op : Op} (h : step s op = some s1) : ready s op = true := by
  cases op <;> simp only [step, ready] at h ⊢ <;> first | rfl | (split at h <;> simp_all)

theorem step_preserves {s s1 : State} (hs : Inv s) {op : Op} (h : step s op = some s1) :
    Inv s1 := by
  obtain ⟨s2, h2, hinv⟩ := step_inv hs op (ready_of_step h)
  rw [h] at h2
  cases h2
  exact hinv

theorem run_preserves {s s1 : State} (hs : Inv s) (ops : List Op) (h : run s ops = some s1) :
    Inv s1 := by
  induction ops generalizing s with
  | nil => simp [run] at h; rw [← h]; exact hs
  | cons op ops ih =>
    simp only [run] at h
    cases hst : step s op with
    | none => rw [hst] at h; exact absurd h (by simp)
    | some s2 =>
      rw [hst] at h
      exact ih (step_preserves hs hst) h

theorem reachable_inv {s : State} (ops : List Op) (h : run State.init ops = some s) : Inv s :=
  run_preserves inv_init ops h

/-! ## Claims -/

/-- C1: a pointee can be deleted twice.  Run `SharedPtr a(p); WeakPtr w(a);`, destroy `a`,
then `l1 = w.Lock(); l2 = w.Lock();`, destroy `l1`, destroy `l2`, with `p` the only raw
value of the program.  The destructor of `a` takes the strong count from 1 to 0 and deletes
`p`; the destructor of `l2` later runs `delete ptr_` on `p` a second time. -/
theorem C1_pointee_deleted_twice :
    (rawValues [.shared_raw (some 7), .weak_shared 0, .shared_dtor 0, .weak_lock 0,
      .weak_lock 0, .shared_dtor 1, .shared_dtor 2]).Nodup ∧
    (run State.init [.shared_raw (some 7), .weak_shared 0, .shared_dtor 0]).map
        (fun s => (s.mem.deleted, (s.mem.heap 0).cb.shared_use_count_)) = some ([7], 0) ∧
    (run State.init [.shared_raw (some 7), .weak_shared 0, .shared_dtor 0, .weak_lock 0,
      .weak_lock 0]).map (fun s => (s.shared 1, s.shared 2, s.mem.deleted)) =
        some (some { ptr_ := none, control_block_ := some 0 },
              some { ptr_ := some 7, control_block_ := some 0 }, [7]) ∧
    (run State.init [.shared_raw (some 7), .weak_shared 0, .shared_dtor 0, .weak_lock 0,
      .weak_lock 0, .shared_dtor 1, .shared_dtor 2]).map
        (fun s => (s.mem.deleted, s.timesDeleted 7)) = some ([7, 7], 2) := by
  refine ⟨by decide, by decide, by decide, by decide⟩

/-- C2: in every state a client program reaches by public operations, a control block is
allocated if and only if its two counters sum to more than zero, the log of block
deletions holds no block twice and holds exactly the blocks that were handed out and are
not allocated; and a block that one more operation deletes was allocated before it and
has both counters at zero after it. -/
theorem C2_block_allocated_iff_counted (ops : List Op) (s : State)
    (h : run State.init ops = some s) :
    (∀ b, (s.mem.heap b).allocated = true ↔
      0 < (s.mem.heap b).cb.shared_use_count_ + (s.mem.heap b).cb.weak_use_count_) ∧
    s.mem.freed.Nodup ∧
    (∀ b, b ∈ s.mem.freed ↔ (b < s.mem.next ∧ (s.mem.heap b).allocated = false)) ∧
    (∀ op s1 b, step s op = some s1 → b ∈ s1.mem.freed → b ∉ s.mem.freed → b < s.mem.next →
      (s.mem.heap b).allocated = true ∧
      (s1.mem.heap b).cb.shared_use_count_ + (s1.mem.heap b).cb.weak_use_count_ = 0) := by
  have hs := reachable_inv ops h
  have key : ∀ t : State, Inv t → ∀ b, (t.mem.heap b).allocated = true ↔
      0 < (t.mem.heap b).cb.shared_use_count_ + (t.mem.heap b).cb.weak_use_count_ := by
    intro t ht b
    rw [ht.counted.alloc b, ht.counted.shared_count b, ht.counted.weak_count b]
    omega
  refine ⟨key s hs, hs.counted.freed_nodup, hs.counted.freed_iff, ?_⟩
  intro op s1 b hst hb1 hb0 hlt
  have hs1 := step_preserves hs hst
  constructor
  · cases hal : (s.mem.heap b).allocated with
    | true => rfl
    | false => exact absurd ((hs.counted.freed_iff b).2 ⟨hlt, hal⟩) hb0
  · have hna := ((hs1.counted.freed_iff b).1 hb1).2
    have := (key s1 hs1 b).not
    rw [hna] at this
    have h1 := hs1.counted.shared_count b
    have h2 := hs1.counted.weak_count b
    simp at this
    omega

theorem C2_block_allocated_iff_counted_witness :
    ∃ s, run State.init [.shared_raw (some 7), .weak_shared 0, .shared_dtor 0, .weak_dtor 0]
        = some s ∧
      (∀ b, (s.mem.heap b).allocated = true ↔
        0 < (s.mem.heap b).cb.shared_use_count_ + (s.mem.heap b).cb.weak_use_count_) ∧
      s.mem.freed = [0] :=
  ⟨_, rfl, (C2_block_allocated_iff_counted
    [.shared_raw (some 7), .weak_shared 0, .shared_dtor 0, .weak_dtor 0] _ rfl).1, rfl⟩

/-- C3: `WeakPtr::Get` can return a pointer to a deleted pointee.  Run `SharedPtr a(p);
WeakPtr w(a);`, destroy `a`, then `l = w.Lock();`.  The pointee `p` has been deleted, `l`
is alive with a null pointer, and `w.IsExpired()` is false again, so `w.Get()` is `p`. -/
theorem C3_Get_returns_deleted_pointee :
    (run State.init [.shared_raw (some 7), .weak_shared 0, .shared_dtor 0, .weak_lock 0]).map
        (fun s => (s.weakGet 0, s.weakIsExpired 0, s.mem.deleted, s.shared 1)) =
      some (some (some 7), some false, [7], some { ptr_ := none, control_block_ := some 0 }) := by
  decide

theorem liveShared_push (s : State) (r : SharedPtr × Mem) :
    (s.pushShared r).liveShared = s.liveShared + 1 := by
  simp [State.liveShared, State.pushShared, List.countP_append]

theorem countP_isSome_end {H : Type} (t : List (Option H)) (i : Nat) (h : H)
    (hi : t[i]? = some (some h)) :
    List.countP Option.isSome (t.set i none) + 1 = List.countP Option.isSome t := by
  obtain ⟨hlt, hget⟩ := List.getElem?_eq_some.1 hi
  have hle := List.boole_getElem_le_countP Option.isSome t i hlt
  rw [List.countP_set _ _ _ _ hlt]
  rw [hget] at hle ⊢
  have h1 : (if Option.isSome (some h) = true then 1 else 0) = 1 := by simp
  have h0 : (if Option.isSome (none : Option H) = true then 1 else 0) = 0 := by simp
  rw [h1] at hle ⊢
  rw [h0]
  omega

theorem liveShared_end (s : State) (i : Nat) (h : SharedPtr) (r : SharedPtr × Mem)
    (hi : s.shareds[i]? = some (some h)) :
    (s.endShared i r).liveShared + 1 = s.liveShared :=
  countP_isSome_end s.shareds i h hi

theorem copyInv_start (p : Nat) :
    CopyInv p (State.init.pushShared (SharedPtr.ctor_raw (some p) State.init.mem)) := by
  refine ⟨?_, ?_, ?_⟩
  · intro i h hi
    rcases live_push _ _ _ _ hi with h1 | h1
    · simp [State.init] at h1
    · rw [h1]; rfl
  · intro _
    refine ⟨?_, rfl, rfl⟩
    simp [State.pushShared, SharedPtr.ctor_raw, Mem.newBlock, State.init, Mem.empty,
      State.liveShared]
  · intro h0
    simp [State.pushShared, State.init, State.liveShared] at h0

theorem liveShared_pos (s : State) (i : Nat) (h : SharedPtr)
    (hi : s.shareds[i]? = some (some h)) : 1 ≤ s.liveShared := by
  obtain ⟨hlt, hget⟩ := List.getElem?_eq_some.1 hi
  have hle := List.boole_getElem_le_countP Option.isSome s.shareds i hlt
  rw [hget] at hle
  simpa [State.liveShared] using hle

theorem copyInv_step (p : Nat) {s s1 : State} (hs : CopyInv p s) (op : Op)
    (hop : copyOrDtor op = true) (h : step s op = some s1) : CopyInv p s1 := by
  cases op <;> simp only [copyOrDtor] at hop <;> try exact absurd hop (by decide)
  · next j =>
    obtain ⟨other, ho, hj⟩ := shared_of_isSome s j (ready_of_step h)
    have hoth := hs.handles j other hj
    have hk := liveShared_pos s j other hj
    obtain ⟨hheap, hdel, hfr⟩ := hs.alive hk
    have hd : s.mem.deref (some 0) = some (0, (s.mem.heap 0).cb) := by
      simp [Mem.deref, hheap]
    simp only [step, ho, SharedPtr.ctor_copy, SharedPtr.GetCB, hoth, hd, Option.map_some',
      Option.some.injEq] at h
    subst h
    refine ⟨?_, ?_, ?_⟩
    · intro i h hi
      rcases live_push _ _ _ _ hi with h1 | h1
      · exact hs.handles i h h1
      · rw [h1]
    · intro _
      rw [liveShared_push]
      refine ⟨?_, hdel, hfr⟩
      simp [State.pushShared, Mem.store, hheap]
    · intro h0
      rw [liveShared_push] at h0
      omega
  · next i =>
    obtain ⟨this, ht, hi⟩ := shared_of_isSome s i (ready_of_step h)
    have hthis := hs.handles i this hi
    have hk := liveShared_pos s i this hi
    obtain ⟨hheap, hdel, hfr⟩ := hs.alive hk
    have hd : s.mem.deref (some 0) = some (0, (s.mem.heap 0).cb) := by
      simp [Mem.deref, hheap]
    simp only [step, ht, SharedPtr.DeleteThis, hthis, hd] at h
    by_cases h1 : s.liveShared = 1
    · have hc : (s.mem.heap 0).cb.shared_use_count_ = 1 := by simp [hheap, h1]
      have hw : (s.mem.heap 0).cb.weak_use_count_ = 0 := by simp [hheap]
      simp only [hc, hw, if_true, Option.map_some', Option.some.injEq] at h
      subst h
      have hlive := liveShared_end s i this
        ({ ptr_ := some p, control_block_ := some 0 },
          (((s.mem.store 0 { shared_use_count_ := 1 - 1, weak_use_count_ := 0 }).deletePtr
            (some p)).deleteBlock 0)) hi
      refine ⟨?_, ?_, ?_⟩
      · intro j h hj
        rcases live_set _ _ _ _ _ hj with h2 | h2
        · exact hs.handles j h h2
        · exact absurd h2 (by simp)
      · intro hpos
        omega
      · intro _
        simp [State.endShared, Mem.deleteBlock, Mem.deletePtr, Mem.store, hdel, hfr]
    · have hc : ¬ (s.mem.heap 0).cb.shared_use_count_ = 1 := by
        simp [hheap, h1]
      simp only [hc, if_false, Option.map_some', Option.some.injEq] at h
      subst h
      have hlive := liveShared_end s i this
        ({ ptr_ := none, control_block_ := none },
          s.mem.store 0 { shared_use_count_ := (s.mem.heap 0).cb.shared_use_count_ - 1,
                          weak_use_count_ := (s.mem.heap 0).cb.weak_use_count_ }) hi
      refine ⟨?_, ?_, ?_⟩
      · intro j h hj
        rcases live_set _ _ _ _ _ hj with h2 | h2
        · exact hs.handles j h h2
        · exact absurd h2 (by simp)
      · intro _
        refine ⟨?_, hdel, hfr⟩
        have hcnt := countP_isSome_end s.shareds i this hi
        simp only [State.liveShared] at hheap h1 hk
        simp only [State.liveShared, State.endShared, Mem.store, if_true, hheap]
        simp
        omega
      · intro h0
        omega

theorem copyInv_run (p : Nat) {s s1 : State} (hs : CopyInv p s) (ops : List Op)
    (hops : ∀ op ∈ ops, copyOrDtor op = true) (h : run s ops = some s1) : CopyInv p s1 := by
  induction ops generalizing s with
  | nil => simp [run] at h; rw [← h]; exact hs
  | cons op ops ih =>
    simp only [run] at h
    cases hst : step s op with
    | none => rw [hst] at h; exact absurd h (by simp)
    | some s2 =>
      rw [hst] at h
      exact ih (copyInv_step p hs op (hops op (List.mem_cons_self _ _)) hst)
        (fun o ho => hops o (List.mem_cons_of_mem _ ho)) h

/-- C4: a program builds one `SharedPtr` from the raw value `p` and then only copies and
destroys `SharedPtr` objects.  While `k ≥ 1` of the handles are alive, each of them holds `p`
and the block, the strong count is `k`, and neither `p` nor the block has been deleted; once
none is alive, `p` has been deleted exactly once and the block exactly once. -/
theorem C4_copy_destroy_deletes_once (p : Nat) (ops : List Op) (s : State)
    (hops : ∀ op ∈ ops, copyOrDtor op = true)
    (h : run State.init (.shared_raw (some p) :: ops) = some s) :
    (∀ i k, s.shared i = some k → k = { ptr_ := some p, control_block_ := some 0 }) ∧
    (1 ≤ s.liveShared →
      s.mem.heap 0 = { cb := { shared_use_count_ := s.liveShared, weak_use_count_ := 0 },
                       allocated := true } ∧
      s.timesDeleted p = 0 ∧ s.mem.deleted = [] ∧ s.mem.freed = []) ∧
    (s.liveShared = 0 →
      (s.mem.heap 0).allocated = false ∧ (s.mem.heap 0).cb.shared_use_count_ = 0 ∧
      s.timesDeleted p = 1 ∧ s.mem.deleted = [p] ∧ s.mem.freed = [0]) := by
  have hinv : CopyInv p s := copyInv_run p (copyInv_start p) ops hops h
  refine ⟨?_, ?_, ?_⟩
  · intro i k hk
    exact hinv.handles i k ((s.shared_eq_some i k).1 hk)
  · intro hk
    obtain ⟨h1, h2, h3⟩ := hinv.alive hk
    exact ⟨h1, by simp [State.timesDeleted, h2], h2, h3⟩
  · intro hk
    obtain ⟨h1, h2, h3⟩ := hinv.dead hk
    exact ⟨by simp [h1], by simp [h1], by simp [State.timesDeleted, h2], h2, h3⟩

theorem C4_copy_destroy_deletes_once_witness :
    ∃ s, run State.init [.shared_raw (some 7), .shared_copy 0, .shared_dtor 0] = some s ∧
      s.liveShared = 1 ∧ (s.mem.heap 0).cb.shared_use_count_ = 1 ∧ s.mem.deleted = [] ∧
      ∃ s1, step s (.shared_dtor 1) = some s1 ∧ s1.liveShared = 0 ∧
        s1.mem.deleted = [7] ∧ s1.mem.freed = [0] :=
  ⟨_, rfl, rfl,
    by
      have h := (C4_copy_destroy_deletes_once 7 [.shared_copy 0, .shared_dtor 0] _
        (by decide) rfl).2.1 (by decide)
      rw [h.1]; rfl,
    rfl, _, rfl, rfl, rfl, rfl⟩

theorem refs_eq_zero_iff {H : Type} (cbOf : H → Option Nat) (t : List (Option H)) (b : Nat) :
    refs cbOf t b = 0 ↔ ∀ (j : Nat) (k : H), t[j]? = some (some k) → cbOf k ≠ some b := by
  constructor
  · intro h0 j k hj hk
    have := refs_pos cbOf t j k hj b hk
    omega
  · intro hall
    by_contra hne
    have hpos : 0 < refs cbOf t b := Nat.pos_of_ne_zero hne
    unfold refs at hpos
    obtain ⟨o, ho, hp⟩ := List.countP_pos_iff.1 hpos
    cases o with
    | none => simp at hp
    | some k =>
      obtain ⟨j, hj⟩ := List.mem_iff_getElem?.1 ho
      exact hall j k hj (by simpa using hp)

theorem weakIsExpired_eq {s : State} (hs : Inv s) (i : Nat) (w : WeakPtr)
    (hw : s.weak i = some w) :
    ∃ b, w.control_block_ = some b ∧ 0 < s.weakOn b ∧
      s.weakIsExpired i = some (decide (s.strongOn b = 0)) := by
  obtain ⟨b, hb, hpos, hd⟩ := deref_live_weak hs ((s.weak_eq_some i w).1 hw)
  refine ⟨b, hb, hpos, ?_⟩
  simp only [State.weakIsExpired, hw, WeakPtr.IsExpired, hd, hs.counted.shared_count b]
  simp

/-- C5: in every state a client program reaches by public operations, the strong count of
the block of a live `WeakPtr` is the number of live `SharedPtr` objects on that block, and
`IsExpired()` returns, with `true` if and only if no live `SharedPtr` holds the block; it is
`true` in the state right after the destructor of the last such `SharedPtr`. -/
theorem C5_IsExpired_iff_no_strong_handle (ops : List Op) (s : State)
    (h : run State.init ops = some s) (i : Nat) (w : WeakPtr) (hw : s.weak i = some w) :
    ∃ b, w.control_block_ = some b ∧
      (s.mem.heap b).cb.shared_use_count_ = (s.strongOn b : Int) ∧
      (s.weakIsExpired i = some true ∨ s.weakIsExpired i = some false) ∧
      (s.weakIsExpired i = some true ↔
        ∀ j k, s.shared j = some k → k.control_block_ ≠ some b) ∧
      (∀ j k s1, s.shared j = some k → k.control_block_ = some b → s.strongOn b = 1 →
        step s (.shared_dtor j) = some s1 → s1.weakIsExpired i = some true) := by
  have hs := reachable_inv ops h
  obtain ⟨b, hb, _, hexp⟩ := weakIsExpired_eq hs i w hw
  have hz := refs_eq_zero_iff SharedPtr.control_block_ s.shareds b
  refine ⟨b, hb, hs.counted.shared_count b, ?_, ?_, ?_⟩
  · rw [hexp]
    by_cases h0 : s.strongOn b = 0 <;> simp [h0]
  · rw [hexp]
    constructor
    · intro ht j k hk
      have h0 : s.strongOn b = 0 := by simpa using ht
      exact (hz.1 h0) j k ((s.shared_eq_some j k).1 hk)
    · intro hall
      have h0 : s.strongOn b = 0 :=
        hz.2 (fun j k hj => hall j k ((s.shared_eq_some j k).2 hj))
      simp [h0]
  · intro j k s1 hk hkb hone hst
    have hs1 := step_preserves hs hst
    have hj := (s.shared_eq_some j k).1 hk
    simp only [step, hk] at hst
    obtain ⟨r, _, hr⟩ := Option.map_eq_some'.1 hst
    have hw1 : s1.weak i = some w := by
      rw [← hr]
      simpa [State.weak, State.endShared] using hw
    obtain ⟨b1, hb1, _, hexp1⟩ := weakIsExpired_eq hs1 i w hw1
    have hbb : b1 = b := by
      rw [hb] at hb1
      exact (Option.some.inj hb1).symm
    subst hbb
    have hcnt := refs_set SharedPtr.control_block_ s.shareds j (some k) none hj b1
    have h0 : s1.strongOn b1 = 0 := by
      rw [← hr]
      simp only [slotOn, hkb, if_true] at hcnt
      simp only [State.strongOn, State.endShared] at hone ⊢
      omega
    rw [hexp1]
    simp [h0]

theorem C5_IsExpired_iff_no_strong_handle_witness :
    ∃ s, run State.init [.shared_raw (some 7), .weak_shared 0, .shared_copy 0, .shared_dtor 0]
        = some s ∧
      s.weakIsExpired 0 = some false ∧
      ∃ s1, step s (.shared_dtor 1) = some s1 ∧ s1.weakIsExpired 0 = some true :=
  ⟨_, rfl, rfl, _, rfl,
    by
      obtain ⟨b, hb, _, _, _, hlast⟩ := C5_IsExpired_iff_no_strong_handle
        [.shared_raw (some 7), .weak_shared 0, .shared_copy 0, .shared_dtor 0] _ rfl 0
        { ptr_ := some 7, control_block_ := some 0 } rfl
      have hb0 : b = 0 := (Option.some.inj hb).symm
      subst hb0
      exact hlast 1 { ptr_ := some 7, control_block_ := some 0 } _ rfl rfl (by decide) rfl⟩

/-- C6: in every state a client program reaches by public operations, every live
`SharedPtr` and every live `WeakPtr` points to an allocated control block on which it is
counted (strong count at least 1, weak count at least 1), no counter of any block is
negative, every public operation on live objects returns (it reads no null or deleted
block) and leaves every counter non-negative, and so does `DeleteThis` on every live
handle. -/
theorem C6_handles_on_allocated_blocks (ops : List Op) (s : State)
    (h : run State.init ops = some s) :
    (∀ i k, s.shared i = some k → ∃ b, k.control_block_ = some b ∧
      (s.mem.heap b).allocated = true ∧ 1 ≤ (s.mem.heap b).cb.shared_use_count_) ∧
    (∀ i w, s.weak i = some w → ∃ b, w.control_block_ = some b ∧
      (s.mem.heap b).allocated = true ∧ 1 ≤ (s.mem.heap b).cb.weak_use_count_) ∧
    (∀ b, 0 ≤ (s.mem.heap b).cb.shared_use_count_ ∧ 0 ≤ (s.mem.heap b).cb.weak_use_count_) ∧
    (∀ op, ready s op = true → ∃ s1, step s op = some s1 ∧
      ∀ b, 0 ≤ (s1.mem.heap b).cb.shared_use_count_ ∧
        0 ≤ (s1.mem.heap b).cb.weak_use_count_) ∧
    (∀ i k, s.shared i = some k → ∃ r, k.DeleteThis s.mem = some r ∧
      ∀ b, 0 ≤ (r.2.heap b).cb.shared_use_count_ ∧ 0 ≤ (r.2.heap b).cb.weak_use_count_) ∧
    (∀ i w, s.weak i = some w → ∃ r, w.DeleteThis s.mem = some r ∧
      ∀ b, 0 ≤ (r.2.heap b).cb.shared_use_count_ ∧ 0 ≤ (r.2.heap b).cb.weak_use_count_) := by
  have hs := reachable_inv ops h
  have nonneg : ∀ t : State, Inv t → ∀ b, 0 ≤ (t.mem.heap b).cb.shared_use_count_ ∧
      0 ≤ (t.mem.heap b).cb.weak_use_count_ := by
    intro t ht b
    rw [ht.counted.shared_count b, ht.counted.weak_count b]
    exact ⟨Int.natCast_nonneg _, Int.natCast_nonneg _⟩
  refine ⟨?_, ?_, nonneg s hs, ?_, ?_, ?_⟩
  · intro i k hk
    obtain ⟨b, hb, hpos, _⟩ := deref_live_shared hs ((s.shared_eq_some i k).1 hk)
    refine ⟨b, hb, (hs.counted.alloc b).2 (by omega), ?_⟩
    rw [hs.counted.shared_count b]
    omega
  · intro i w hw
    obtain ⟨b, hb, hpos, _⟩ := deref_live_weak hs ((s.weak_eq_some i w).1 hw)
    refine ⟨b, hb, (hs.counted.alloc b).2 (by omega), ?_⟩
    rw [hs.counted.weak_count b]
    omega
  · intro op hop
    obtain ⟨s1, hst, hs1⟩ := step_inv hs op hop
    exact ⟨s1, hst, nonneg s1 hs1⟩
  · intro i k hk
    obtain ⟨r, hr, hinv⟩ := inv_end_shared hs i k ((s.shared_eq_some i k).1 hk)
    exact ⟨r, hr, nonneg _ hinv⟩
  · intro i w hw
    obtain ⟨r, hr, hinv⟩ := inv_end_weak hs i w ((s.weak_eq_some i w).1 hw)
    exact ⟨r, hr, nonneg _ hinv⟩

theorem C6_handles_on_allocated_blocks_witness :
    ∃ s, run State.init [.shared_raw (some 7), .weak_shared 0, .shared_dtor 0, .weak_lock 0,
        .weak_default, .weak_assign_copy 0 1] = some s ∧
      ∀ b, 0 ≤ (s.mem.heap b).cb.shared_use_count_ ∧ 0 ≤ (s.mem.heap b).cb.weak_use_count_ :=
  ⟨_, rfl, (C6_handles_on_allocated_blocks
    [.shared_raw (some 7), .weak_shared 0, .shared_dtor 0, .weak_lock 0,
      .weak_default, .weak_assign_copy 0 1] _ rfl).2.2.1⟩

theorem deref_eq_some {m : Mem} {a : Option Nat} {b : Nat} {c : ControlBlock}
    (hd : m.deref a = some (b, c)) :
    a = some b ∧ (m.heap b).allocated = true ∧ c = (m.heap b).cb := by
  unfold Mem.deref at hd
  cases a with
  | none => exact absurd hd (by simp)
  | some x =>
    by_cases hal : (m.heap x).allocated = true
    · simp only [hal, if_true, Option.some.injEq, Prod.mk.injEq] at hd
      obtain ⟨h1, h2⟩ := hd
      subst h1
      exact ⟨rfl, hal, h2.symm⟩
    · simp [hal] at hd

/-- C7: `W.Lock()` on a live `WeakPtr` whose block is allocated with strong count `s ≥ 1`
builds a new `SharedPtr` whose `Get()` is the stored pointer of `W` and whose control block
is the block of `W`; afterwards the strong count is `s + 1`, the weak count, `W`, every
other handle, every other block and the two deletion logs are as before. -/
theorem C7_Lock_not_expired (s : State) (i : Nat) (w : WeakPtr) (b : Nat) (c : ControlBlock)
    (hw : s.weak i = some w) (hd : s.mem.deref w.control_block_ = some (b, c))
    (hpos : 1 ≤ c.shared_use_count_) :
    ∃ L s1, step s (.weak_lock i) = some s1 ∧
      s1.shareds = s.shareds ++ [some L] ∧
      L.Get = w.ptr_ ∧ L.GetCB = w.GetCB ∧ w.GetCB = some b ∧
      (s1.mem.heap b).cb.shared_use_count_ = c.shared_use_count_ + 1 ∧
      (s1.mem.heap b).cb.weak_use_count_ = c.weak_use_count_ ∧
      (s1.mem.heap b).allocated = true ∧
      s1.weaks = s.weaks ∧ s1.weak i = some w ∧
      (∀ x, x ≠ b → s1.mem.heap x = s.mem.heap x) ∧
      s1.mem.deleted = s.mem.deleted ∧ s1.mem.freed = s.mem.freed ∧
      s1.mem.next = s.mem.next := by
  obtain ⟨hcb, hal, hc⟩ := deref_eq_some hd
  have hne : ¬ c.shared_use_count_ = 0 := by omega
  refine ⟨{ ptr_ := w.ptr_, control_block_ := w.control_block_ },
    s.pushShared ({ ptr_ := w.ptr_, control_block_ := w.control_block_ },
      s.mem.store b { c with shared_use_count_ := c.shared_use_count_ + 1 }), ?_, rfl, rfl, rfl,
    hcb, ?_, ?_, ?_, rfl, ?_, ?_, rfl, rfl, rfl⟩
  · simp [step, hw, WeakPtr.Lock, WeakPtr.IsExpired, SharedPtr.ctor_pair, hd, hne]
  · simp [State.pushShared, Mem.store]
  · simp [State.pushShared, Mem.store]
  · simp [State.pushShared, Mem.store, hal]
  · simpa [State.weak, State.pushShared] using hw
  · intro x hx
    simp [State.pushShared, Mem.store, hx]

theorem C7_Lock_not_expired_witness :
    ∃ s, run State.init [.shared_raw (some 7), .weak_shared 0] = some s ∧
      ∃ L s1, step s (.weak_lock 0) = some s1 ∧ s1.shareds = s.shareds ++ [some L] ∧
        L.Get = some 7 ∧ (s1.mem.heap 0).cb.shared_use_count_ = 2 :=
  ⟨_, rfl,
    by
      obtain ⟨L, s1, h1, h2, h3, _, _, h6, _⟩ := C7_Lock_not_expired
        { mem := ((SharedPtr.ctor_raw (some 7) Mem.empty).2.store 0
                    { shared_use_count_ := 1, weak_use_count_ := 1 })
          shareds := [some { ptr_ := some 7, control_block_ := some 0 }]
          weaks := [some { ptr_ := some 7, control_block_ := some 0 }] }
        0 { ptr_ := some 7, control_block_ := some 0 } 0
        { shared_use_count_ := 1, weak_use_count_ := 1 } rfl rfl (by decide)
      exact ⟨L, s1, h1, h2, h3, h6⟩⟩

/-- C8: `W.Lock()` on a live `WeakPtr` whose block is allocated with strong count 0 builds a
new `SharedPtr` `L` with `Get()` null on the block of `W` and raises the strong count to 1,
deleting nothing.  In every later state where `L` is alive and the strong count of the block
is 1, the destructor of `L` returns, takes the strong count to 0, deletes no pointee, and
deletes the block if and only if the weak count is 0 there. -/
theorem C8_Lock_expired (s : State) (i : Nat) (w : WeakPtr) (b : Nat) (c : ControlBlock)
    (hw : s.weak i = some w) (hd : s.mem.deref w.control_block_ = some (b, c))
    (h0 : c.shared_use_count_ = 0) :
    ∃ L s1, step s (.weak_lock i) = some s1 ∧
      s1.shareds = s.shareds ++ [some L] ∧ s1.shared s.shareds.length = some L ∧
      L.Get = none ∧ L.GetCB = w.GetCB ∧ w.GetCB = some b ∧
      (s1.mem.heap b).cb.shared_use_count_ = 1 ∧
      (s1.mem.heap b).cb.weak_use_count_ = c.weak_use_count_ ∧
      (s1.mem.heap b).allocated = true ∧
      s1.mem.deleted = s.mem.deleted ∧ s1.mem.freed = s.mem.freed ∧
      (∀ (s2 : State) (n : Nat) (c2 : ControlBlock), s2.shared n = some L →
        s2.mem.deref (some b) = some (b, c2) → c2.shared_use_count_ = 1 →
        ∃ s3, step s2 (.shared_dtor n) = some s3 ∧ s3.shared n = none ∧
          (s3.mem.heap b).cb.shared_use_count_ = 0 ∧
          (s3.mem.heap b).cb.weak_use_count_ = c2.weak_use_count_ ∧
          s3.mem.deleted = s2.mem.deleted ∧
          ((s3.mem.heap b).allocated = false ↔ c2.weak_use_count_ = 0) ∧
          s3.mem.freed = (if c2.weak_use_count_ = 0 then s2.mem.freed ++ [b]
            else s2.mem.freed)) := by
  obtain ⟨hcb, hal, hc⟩ := deref_eq_some hd
  have hwb : w.control_block_ = some b := hcb
  refine ⟨{ ptr_ := none, control_block_ := w.control_block_ },
    s.pushShared ({ ptr_ := none, control_block_ := w.control_block_ },
      s.mem.store b { c with shared_use_count_ := c.shared_use_count_ + 1 }), ?_, rfl, ?_, rfl,
    rfl, hcb, ?_, ?_, ?_, rfl, rfl, ?_⟩
  · simp [step, hw, WeakPtr.Lock, WeakPtr.IsExpired, SharedPtr.ctor_pair, hd, h0]
  · simp [State.shared, State.pushShared]
  · simp [State.pushShared, Mem.store, h0]
  · simp [State.pushShared, Mem.store]
  · simp [State.pushShared, Mem.store, hal]
  · intro s2 n c2 hL hd2 h1
    obtain ⟨_, hal2, hc2⟩ := deref_eq_some hd2
    have hn := (s2.shared_eq_some n _).1 hL
    have hlt := (List.getElem?_eq_some.1 hn).1
    by_cases hw0 : c2.weak_use_count_ = 0
    · refine ⟨s2.endShared n ({ ptr_ := none, control_block_ := w.control_block_ },
        ((s2.mem.store b { c2 with shared_use_count_ := c2.shared_use_count_ - 1 }).deletePtr
          none).deleteBlock b), ?_, ?_, ?_, ?_, ?_, ?_, ?_⟩
      · simp [step, hL, SharedPtr.DeleteThis, hwb, hd2, h1, hw0]
      · simp [State.shared, State.endShared, List.getElem?_set_self hlt]
      · simp [State.endShared, Mem.deleteBlock, Mem.deletePtr, Mem.store, h1]
      · simp [State.endShared, Mem.deleteBlock, Mem.deletePtr, Mem.store, hw0]
      · simp [State.endShared, Mem.deleteBlock, Mem.deletePtr, Mem.store]
      · simp [State.endShared, Mem.deleteBlock, Mem.deletePtr, Mem.store, hw0]
      · simp [State.endShared, Mem.deleteBlock, Mem.deletePtr, Mem.store, hw0]
    · refine ⟨s2.endShared n ({ ptr_ := none, control_block_ := w.control_block_ },
        (s2.mem.store b { c2 with shared_use_count_ := c2.shared_use_count_ - 1 }).deletePtr
          none), ?_, ?_, ?_, ?_, ?_, ?_, ?_⟩
      · simp [step, hL, SharedPtr.DeleteThis, hwb, hd2, h1, hw0]
      · simp [State.shared, State.endShared, List.getElem?_set_self hlt]
      · simp [State.endShared, Mem.deletePtr, Mem.store, h1]
      · simp [State.endShared, Mem.deletePtr, Mem.store]
      · simp [State.endShared, Mem.deletePtr, Mem.store]
      · simp [State.endShared, Mem.deletePtr, Mem.store, hw0, hal2]
      · simp [State.endShared, Mem.deletePtr, Mem.store, hw0]

theorem C8_Lock_expired_witness :
    ∃ s, run State.init [.shared_raw (some 7), .weak_shared 0, .shared_dtor 0] = some s ∧
      ∃ L s1, step s (.weak_lock 0) = some s1 ∧ s1.shared 1 = some L ∧ L.Get = none ∧
        (s1.mem.heap 0).cb.shared_use_count_ = 1 ∧
        ∃ s3, step s1 (.shared_dtor 1) = some s3 ∧
          (s3.mem.heap 0).cb.shared_use_count_ = 0 ∧ s3.mem.deleted = s1.mem.deleted ∧
          s3.mem.freed = s1.mem.freed :=
  ⟨_, rfl,
    by
      obtain ⟨L, s1, h1, _, h3, h4, _, _, h7, h8, hal, _, _, hdtor⟩ := C8_Lock_expired
        { mem := (((SharedPtr.ctor_raw (some 7) Mem.empty).2.store 0
                    { shared_use_count_ := 1, weak_use_count_ := 1 }).store 0
                    { shared_use_count_ := 1 - 1, weak_use_count_ := 1 }).deletePtr (some 7)
          shareds := [none]
          weaks := [some { ptr_ := some 7, control_block_ := some 0 }] }
        0 { ptr_ := some 7, control_block_ := some 0 } 0
        { shared_use_count_ := 0, weak_use_count_ := 1 } rfl rfl rfl
      obtain ⟨s3, g1, _, g3, _, g5, _, g7⟩ := hdtor s1 1 (s1.mem.heap 0).cb h3
        (by simp [Mem.deref, hal]) h7
      refine ⟨L, s1, h1, h3, h4, h7, s3, g1, g3, g5, ?_⟩
      rw [g7, if_neg (by rw [h8]; decide)]⟩

theorem Mem.deletePtr_deleted (m : Mem) (p : Option Nat) :
    (m.deletePtr p).deleted = m.deleted ++ p.toList := by
  cases p <;> simp [Mem.deletePtr]

/-- The destructor of the last handle of a block, a weak one, deletes the block. -/
theorem weak_dtor_last {s : State} (hs : Inv s) (k : Nat) (w : WeakPtr) (b : Nat)
    (hw : s.weak k = some w) (hb : w.control_block_ = some b) (h1 : s.weakOn b = 1)
    (h0 : s.strongOn b = 0) :
    ∃ s3, step s (.weak_dtor k) = some s3 ∧ (s3.mem.heap b).allocated = false ∧
      s3.mem.freed = s.mem.freed ++ [b] := by
  have hd : s.mem.deref (some b) = some (b, (s.mem.heap b).cb) :=
    deref_of_counted hs.counted (by omega)
  have hc1 : (s.mem.heap b).cb.weak_use_count_ = 1 := by
    rw [hs.counted.weak_count b, h1]; rfl
  have hc0 : (s.mem.heap b).cb.shared_use_count_ = 0 := by
    rw [hs.counted.shared_count b, h0]; rfl
  refine ⟨s.endWeak k (w, (s.mem.store b { (s.mem.heap b).cb with
      weak_use_count_ := (s.mem.heap b).cb.weak_use_count_ - 1 }).deleteBlock b), ?_, ?_, ?_⟩
  · simp [step, hw, WeakPtr.DeleteThis, hb, hd, hc1, hc0]
  · simp [State.endWeak, Mem.deleteBlock]
  · simp [State.endWeak, Mem.deleteBlock, Mem.store]

/-- C9: in a state a client program reaches by public operations, let `A` be the only live
`SharedPtr` on its block and `W` a live `WeakPtr` on the same block.  The destructor of `A`
returns, deletes the pointee of `A`, leaves the block allocated with its weak count as it
was (the number of live `WeakPtr` objects on it), and afterwards `W.IsExpired()` is true and
`W.Get()` is null.  After any further public operations, the destructor of a `WeakPtr` that
is then the last handle on the block deletes the block. -/
theorem C9_strong_then_weak_release (ops : List Op) (s : State)
    (h : run State.init ops = some s) (i j : Nat) (A : SharedPtr) (W : WeakPtr) (b : Nat)
    (hA : s.shared i = some A) (hW : s.weak j = some W)
    (hAb : A.control_block_ = some b) (hWb : W.control_block_ = some b)
    (hone : s.strongOn b = 1) :
    ∃ s1, step s (.shared_dtor i) = some s1 ∧
      s1.mem.deleted = s.mem.deleted ++ A.ptr_.toList ∧
      (s1.mem.heap b).allocated = true ∧
      (s1.mem.heap b).cb.shared_use_count_ = 0 ∧
      (s1.mem.heap b).cb.weak_use_count_ = (s.mem.heap b).cb.weak_use_count_ ∧
      (s1.mem.heap b).cb.weak_use_count_ = (s.weakOn b : Int) ∧
      s1.mem.freed = s.mem.freed ∧
      s1.weak j = some W ∧
      s1.weakIsExpired j = some true ∧ s1.weakGet j = some none ∧
      (∀ ops2 s2 k W2, run s1 ops2 = some s2 → s2.weak k = some W2 →
        W2.control_block_ = some b → s2.weakOn b = 1 → s2.strongOn b = 0 →
        ∃ s3, step s2 (.weak_dtor k) = some s3 ∧ (s3.mem.heap b).allocated = false ∧
          s3.mem.freed = s2.mem.freed ++ [b]) := by
  have hs := reachable_inv ops h
  have hwpos : 0 < s.weakOn b := refs_pos _ _ j W ((s.weak_eq_some j W).1 hW) b hWb
  have hd : s.mem.deref (some b) = some (b, (s.mem.heap b).cb) :=
    deref_of_counted hs.counted (by omega)
  have hal : (s.mem.heap b).allocated = true := (hs.counted.alloc b).2 (by omega)
  have hc1 : (s.mem.heap b).cb.shared_use_count_ = 1 := by
    rw [hs.counted.shared_count b, hone]; rfl
  have hcw : ¬ (s.mem.heap b).cb.weak_use_count_ = 0 := by
    rw [hs.counted.weak_count b]; omega
  have hst : step s (.shared_dtor i) = some (s.endShared i (A, (s.mem.store b
      { (s.mem.heap b).cb with
        shared_use_count_ := (s.mem.heap b).cb.shared_use_count_ - 1 }).deletePtr A.ptr_)) := by
    simp [step, hA, SharedPtr.DeleteThis, hAb, hd, hc1, hcw]
  have hs1 := step_preserves hs hst
  have hw1 : (s.endShared i (A, (s.mem.store b { (s.mem.heap b).cb with
      shared_use_count_ := (s.mem.heap b).cb.shared_use_count_ - 1 }).deletePtr A.ptr_)).weak j
      = some W := by
    simpa [State.weak, State.endShared] using hW
  refine ⟨_, hst, ?_, ?_, ?_, ?_, ?_, ?_, hw1, ?_, ?_, ?_⟩
  · simp [State.endShared, Mem.deletePtr_deleted, Mem.store]
  · simp [State.endShared, Mem.store, hal]
  · simp [State.endShared, Mem.store, hc1]
  · simp [State.endShared, Mem.store]
  · simp [State.endShared, Mem.store, hs.counted.weak_count b]
  · simp [State.endShared, Mem.store]
  · simp only [State.weakIsExpired, hw1, WeakPtr.IsExpired, hWb]
    simp [State.endShared, Mem.deref, Mem.store, hal, hc1]
  · simp only [State.weakGet, hw1, WeakPtr.Get, WeakPtr.IsExpired, hWb]
    simp [State.endShared, Mem.deref, Mem.store, hal, hc1]
  · intro ops2 s2 k W2 hrun hW2 hW2b hw1 hs0
    exact weak_dtor_last (run_preserves hs1 ops2 hrun) k W2 b hW2 hW2b hw1 hs0

theorem C9_strong_then_weak_release_witness :
    ∃ s, run State.init [.shared_raw (some 7), .weak_shared 0] = some s ∧
      ∃ s1, step s (.shared_dtor 0) = some s1 ∧ s1.mem.deleted = [7] ∧
        (s1.mem.heap 0).allocated = true ∧ (s1.mem.heap 0).cb.weak_use_count_ = 1 ∧
        s1.weakIsExpired 0 = some true ∧ s1.weakGet 0 = some none ∧
        ∃ s3, step s1 (.weak_dtor 0) = some s3 ∧ (s3.mem.heap 0).allocated = false ∧
          s3.mem.freed = [0] :=
  ⟨_, rfl,
    by
      obtain ⟨s1, h1, h2, h3, _, _, h6, h7, _, h9, h10, hlast⟩ :=
        C9_strong_then_weak_release [.shared_raw (some 7), .weak_shared 0] _ rfl 0 0
          { ptr_ := some 7, control_block_ := some 0 }
          { ptr_ := some 7, control_block_ := some 0 } 0 rfl rfl rfl rfl (by decide)
      have hs1 : s1 = _ := Option.some.inj (h1.symm.trans rfl)
      obtain ⟨s3, g1, g2, g3⟩ := hlast [] s1 0 { ptr_ := some 7, control_block_ := some 0 }
        rfl (by rw [hs1]; rfl) rfl (by rw [hs1]; decide) (by rw [hs1]; decide)
      refine ⟨s1, h1, h2, h3, ?_, h9, h10, s3, g1, g2, ?_⟩
      · rw [h6]; decide
      · rw [g3, h7]; rfl⟩

/-- C10: in a state a client program reaches by public operations, let `h` be a live
`SharedPtr` whose block has strong count `s ≥ 2`.  `h.Reset(p)` returns and leaves `h` with
`Get() == p` on a control block that was not allocated before, differs from the old block
and holds the counts `(1, 0)`; the old block stays allocated with strong count `s - 1` and
its weak count unchanged; nothing is deleted; every other handle and every other block is
unchanged. -/
theorem C10_Reset_with_co_owners (ops : List Op) (s : State)
    (h : run State.init ops = some s) (i : Nat) (k : SharedPtr) (b : Nat) (p : Option Nat)
    (hk : s.shared i = some k) (hb : k.control_block_ = some b)
    (h2 : 2 ≤ (s.mem.heap b).cb.shared_use_count_) :
    ∃ s1, step s (.shared_reset i p) = some s1 ∧
      s1.shared i = some { ptr_ := p, control_block_ := some s.mem.next } ∧
      (∀ k1, s1.shared i = some k1 → k1.Get = p) ∧
      s.mem.next ≠ b ∧ (s.mem.heap s.mem.next).allocated = false ∧
      s1.mem.heap s.mem.next =
        { cb := { shared_use_count_ := 1, weak_use_count_ := 0 }, allocated := true } ∧
      s1.mem.heap b =
        { cb := { shared_use_count_ := (s.mem.heap b).cb.shared_use_count_ - 1,
                  weak_use_count_ := (s.mem.heap b).cb.weak_use_count_ },
          allocated := true } ∧
      s1.mem.deleted = s.mem.deleted ∧ s1.mem.freed = s.mem.freed ∧
      (∀ j, j ≠ i → s1.shareds[j]? = s.shareds[j]?) ∧
      s1.shareds.length = s.shareds.length ∧
      s1.weaks = s.weaks ∧
      (∀ x, x ≠ b → x ≠ s.mem.next → s1.mem.heap x = s.mem.heap x) := by
  have hs := reachable_inv ops h
  have hi := (s.shared_eq_some i k).1 hk
  have hlt := (List.getElem?_eq_some.1 hi).1
  have hpos : 0 < s.strongOn b := refs_pos _ _ i k hi b hb
  have hd : s.mem.deref (some b) = some (b, (s.mem.heap b).cb) :=
    deref_of_counted hs.counted (by omega)
  have hal : (s.mem.heap b).allocated = true := (hs.counted.alloc b).2 (by omega)
  have hbn : b < s.mem.next := hs.counted.bound b hal
  have hne : s.mem.next ≠ b := by omega
  have hne1 : ¬ (s.mem.heap b).cb.shared_use_count_ = 1 := by omega
  have hfresh : (s.mem.heap s.mem.next).allocated = false := by
    cases hx : (s.mem.heap s.mem.next).allocated
    · rfl
    · exact absurd (hs.counted.bound _ hx) (lt_irrefl _)
  have hst : step s (.shared_reset i p) = some (s.setShared i
      ({ ptr_ := p, control_block_ := some s.mem.next },
        ((s.mem.store b { (s.mem.heap b).cb with
          shared_use_count_ := (s.mem.heap b).cb.shared_use_count_ - 1 }).newBlock 1 0).2)) := by
    simp [step, hk, SharedPtr.Reset, SharedPtr.DeleteThis, hb, hd, hne1, Mem.newBlock,
      Mem.store]
  have hget : (s.setShared i
      ({ ptr_ := p, control_block_ := some s.mem.next },
        ((s.mem.store b { (s.mem.heap b).cb with
          shared_use_count_ := (s.mem.heap b).cb.shared_use_count_ - 1 }).newBlock 1 0).2)).shared
      i = some { ptr_ := p, control_block_ := some s.mem.next } := by
    simp [State.shared, State.setShared, List.getElem?_set_self hlt]
  refine ⟨_, hst, hget, ?_, hne, hfresh, ?_, ?_, rfl, rfl, ?_, ?_, rfl, ?_⟩
  · intro k1 hk1
    rw [hget] at hk1
    rw [← Option.some.inj hk1]
    rfl
  · simp [State.setShared, Mem.newBlock, Mem.store]
  · simp [State.setShared, Mem.newBlock, Mem.store, hne.symm, hal]
  · intro j hj
    simp [State.setShared, List.getElem?_set_ne (Ne.symm hj)]
  · simp [State.setShared]
  · intro x hx hxn
    simp [State.setShared, Mem.newBlock, Mem.store, hx, hxn]

theorem C10_Reset_with_co_owners_witness :
    ∃ s, run State.init [.shared_raw (some 7), .shared_copy 0] = some s ∧
      ∃ s1, step s (.shared_reset 1 (some 9)) = some s1 ∧
        s1.shared 1 = some { ptr_ := some 9, control_block_ := some 1 } ∧
        s1.shared 0 = some { ptr_ := some 7, control_block_ := some 0 } ∧
        s1.mem.deleted = [] :=
  ⟨_, rfl,
    by
      obtain ⟨s1, h1, h2, _, _, _, _, _, h8, _, h10, _, _, _⟩ :=
        C10_Reset_with_co_owners [.shared_raw (some 7), .shared_copy 0] _ rfl 1
          { ptr_ := some 7, control_block_ := some 0 } 0 (some 9) rfl rfl (by decide)
      refine ⟨s1, h1, h2, ?_, h8⟩
      have := h10 0 (by decide)
      simp only [State.shared, this]
      rfl⟩

/-- `WeakPtr::DeleteThis` deletes no pointee and writes no strong counter. -/
theorem weak_DeleteThis_frame (this : WeakPtr) (m : Mem) (r : WeakPtr × Mem)
    (h : this.DeleteThis m = some r) :
    r.2.deleted = m.deleted ∧ r.2.next = m.next ∧
      ∀ x, (r.2.heap x).cb.shared_use_count_ = (m.heap x).cb.shared_use_count_ := by
  unfold WeakPtr.DeleteThis at h
  cases hd : m.deref this.control_block_ with
  | none => rw [hd] at h; exact absurd h (by simp)
  | some bc =>
    obtain ⟨b, c⟩ := bc
    obtain ⟨_, _, hc⟩ := deref_eq_some hd
    rw [hd] at h
    dsimp only at h
    have key : ∀ x, ((m.store b { c with weak_use_count_ := c.weak_use_count_ - 1 }).heap
        x).cb.shared_use_count_ = (m.heap x).cb.shared_use_count_ := by
      intro x
      by_cases hx : x = b
      · subst hx; simp [Mem.store, hc]
      · simp [Mem.store, hx]
    split at h
    · split at h
      · cases h
        refine ⟨rfl, rfl, ?_⟩
        intro x
        rw [← key x]
        by_cases hx : x = b
        · subst hx; simp [Mem.deleteBlock]
        · simp [Mem.deleteBlock, hx]
      · cases h
        exact ⟨rfl, rfl, key⟩
    · cases h
      exact ⟨rfl, rfl, key⟩

/-- Adding one to a weak counter deletes no pointee and writes no strong counter. -/
theorem weak_inc_frame (m : Mem) (a : Option Nat) (b : Nat) (c : ControlBlock)
    (hd : m.deref a = some (b, c)) :
    ∀ x, ((m.store b { c with weak_use_count_ := c.weak_use_count_ + 1 }).heap
      x).cb.shared_use_count_ = (m.heap x).cb.shared_use_count_ := by
  obtain ⟨_, _, hc⟩ := deref_eq_some hd
  intro x
  by_cases hx : x = b
  · subst hx; simp [Mem.store, hc]
  · simp [Mem.store, hx]

theorem weak_ctor_copy_frame (other : WeakPtr) (m : Mem) (r : WeakPtr × Mem)
    (h : WeakPtr.ctor_copy other m = some r) :
    r.2.deleted = m.deleted ∧
      ∀ x, (r.2.heap x).cb.shared_use_count_ = (m.heap x).cb.shared_use_count_ := by
  cases hd : m.deref other.control_block_ with
  | none => simp [WeakPtr.ctor_copy, WeakPtr.IsExpired, hd] at h
  | some bc =>
    obtain ⟨b, c⟩ := bc
    rw [WeakPtr.ctor_copy_eq other m b c hd] at h
    cases h
    exact ⟨rfl, weak_inc_frame m _ b c hd⟩

theorem weak_ctor_shared_frame (other : SharedPtr) (m : Mem) (r : WeakPtr × Mem)
    (h : WeakPtr.ctor_shared other m = some r) :
    r.2.deleted = m.deleted ∧
      ∀ x, (r.2.heap x).cb.shared_use_count_ = (m.heap x).cb.shared_use_count_ := by
  unfold WeakPtr.ctor_shared at h
  cases hd : m.deref other.GetCB with
  | none => rw [hd] at h; exact absurd h (by simp)
  | some bc =>
    obtain ⟨b, c⟩ := bc
    rw [hd] at h
    cases h
    exact ⟨rfl, weak_inc_frame m _ b c hd⟩

theorem weak_assign_frame (i j : Nat) (this other : WeakPtr) (m : Mem) (r : WeakPtr × Mem)
    (h : WeakPtr.assign_copy i j this other m = some r) :
    r.2.deleted = m.deleted ∧
      ∀ x, (r.2.heap x).cb.shared_use_count_ = (m.heap x).cb.shared_use_count_ := by
  unfold WeakPtr.assign_copy at h
  split at h
  · cases h; exact ⟨rfl, fun _ => rfl⟩
  · cases h1 : this.DeleteThis m with
    | none => rw [h1] at h; exact absurd h (by simp)
    | some r1 =>
      obtain ⟨g1, _, g2⟩ := weak_DeleteThis_frame this m r1 h1
      rw [h1] at h
      dsimp only at h
      cases hd : r1.2.deref other.control_block_ with
      | none => simp [WeakPtr.IsExpired, hd] at h
      | some bc =>
        obtain ⟨b, c⟩ := bc
        simp only [WeakPtr.IsExpired, hd, Option.some.injEq] at h
        rw [← h]
        refine ⟨g1, ?_⟩
        intro x
        rw [← g2 x]
        exact weak_inc_frame r1.2 _ b c hd x

/-- C11: from every state a client program reaches by public operations, a `WeakPtr`
default construction, copy or move construction, construction from a `SharedPtr`, copy or
move assignment, or destruction leaves the log of deleted pointees and the strong counter
of every control block as they were. -/
theorem C11_weak_ops_frame (ops : List Op) (s : State) (h : run State.init ops = some s)
    (op : Op) (s1 : State) (hop : isWeakOp op = true) (hst : step s op = some s1) :
    s1.mem.deleted = s.mem.deleted ∧
    (∀ p, s1.timesDeleted p = s.timesDeleted p) ∧
    (∀ b, (s1.mem.heap b).cb.shared_use_count_ = (s.mem.heap b).cb.shared_use_count_) ∧
    s1.shareds = s.shareds := by
  have hs := reachable_inv ops h
  have main : s1.mem.deleted = s.mem.deleted ∧
      (∀ b, (s1.mem.heap b).cb.shared_use_count_ = (s.mem.heap b).cb.shared_use_count_) ∧
      s1.shareds = s.shareds := by
    cases op <;> simp only [isWeakOp] at hop <;> try exact absurd hop (by decide)
    · simp only [step, Option.some.injEq] at hst
      subst hst
      refine ⟨rfl, ?_, rfl⟩
      intro b
      by_cases hb : b = s.mem.next
      · subst hb
        have hna : ¬ (s.mem.heap s.mem.next).allocated = true :=
          fun hx => absurd (hs.counted.bound _ hx) (lt_irrefl _)
        have h0 : s.strongOn s.mem.next = 0 := by
          have := (hs.counted.alloc s.mem.next).not.1 hna
          omega
        simp [State.pushWeak, WeakPtr.ctor_default, Mem.newBlock,
          hs.counted.shared_count, h0]
      · simp [State.pushWeak, WeakPtr.ctor_default, Mem.newBlock, hb]
    · next j =>
      obtain ⟨other, ho, _⟩ := weak_of_isSome s j (ready_of_step hst)
      simp only [step, ho] at hst
      obtain ⟨r, hr, hs1⟩ := Option.map_eq_some'.1 hst
      obtain ⟨g1, g2⟩ := weak_ctor_copy_frame other s.mem r hr
      subst hs1
      exact ⟨g1, g2, rfl⟩
    · next j =>
      obtain ⟨other, ho, _⟩ := weak_of_isSome s j (ready_of_step hst)
      simp only [step, ho] at hst
      obtain ⟨r, hr, hs1⟩ := Option.map_eq_some'.1 hst
      obtain ⟨g1, g2⟩ := weak_ctor_copy_frame other s.mem r hr
      subst hs1
      exact ⟨g1, g2, rfl⟩
    · next j =>
      obtain ⟨other, ho, _⟩ := shared_of_isSome s j (ready_of_step hst)
      simp only [step, ho] at hst
      obtain ⟨r, hr, hs1⟩ := Option.map_eq_some'.1 hst
      obtain ⟨g1, g2⟩ := weak_ctor_shared_frame other s.mem r hr
      subst hs1
      exact ⟨g1, g2, rfl⟩
    · next i j =>
      have hr := ready_of_step hst
      simp only [ready, Bool.and_eq_true] at hr
      obtain ⟨this, ht, _⟩ := weak_of_isSome s i hr.1
      obtain ⟨other, ho, _⟩ := weak_of_isSome s j hr.2
      simp only [step, ht, ho] at hst
      obtain ⟨r, hr1, hs1⟩ := Option.map_eq_some'.1 hst
      obtain ⟨g1, g2⟩ := weak_assign_frame i j this other s.mem r hr1
      subst hs1
      exact ⟨g1, g2, rfl⟩
    · next i j =>
      have hr := ready_of_step hst
      simp only [ready, Bool.and_eq_true] at hr
      obtain ⟨this, ht, _⟩ := weak_of_isSome s i hr.1
      obtain ⟨other, ho, _⟩ := weak_of_isSome s j hr.2
      simp only [step, ht, ho] at hst
      obtain ⟨r, hr1, hs1⟩ := Option.map_eq_some'.1 hst
      obtain ⟨g1, g2⟩ := weak_assign_frame i j this other s.mem r hr1
      subst hs1
      exact ⟨g1, g2, rfl⟩
    · next i =>
      obtain ⟨this, ht, _⟩ := weak_of_isSome s i (ready_of_step hst)
      simp only [step, ht] at hst
      obtain ⟨r, hr, hs1⟩ := Option.map_eq_some'.1 hst
      obtain ⟨g1, _, g2⟩ := weak_DeleteThis_frame this s.mem r hr
      subst hs1
      exact ⟨g1, g2, rfl⟩
  exact ⟨main.1, fun p => by simp [State.timesDeleted, main.1], main.2.1, main.2.2⟩

theorem C11_weak_ops_frame_witness :
    ∃ s, run State.init [.shared_raw (some 7), .weak_shared 0, .shared_dtor 0] = some s ∧
      ∃ s1, step s (.weak_dtor 0) = some s1 ∧ s1.mem.deleted = s.mem.deleted ∧
        (∀ b, (s1.mem.heap b).cb.shared_use_count_ = (s.mem.heap b).cb.shared_use_count_) :=
  ⟨_, rfl, _, rfl,
    (C11_weak_ops_frame [.shared_raw (some 7), .weak_shared 0, .shared_dtor 0] _ rfl
      (.weak_dtor 0) _ rfl rfl).1,
    (C11_weak_ops_frame [.shared_raw (some 7), .weak_shared 0, .shared_dtor 0] _ rfl
      (.weak_dtor 0) _ rfl rfl).2.2.1⟩

/-- C12: move is a counted copy.  From every state, move construction of a `SharedPtr` or a
`WeakPtr` gives the same result (new handle, source handle, counters, whole state) as copy
construction from the same source, and move assignment the same result as copy assignment.
After `SharedPtr x(std::move(other))` on a live `other` whose block is allocated, the new
handle has the fields of `other`, `other` is unchanged and the strong count is one more. -/
theorem C12_move_is_counted_copy (s : State) (i j : Nat) :
    step s (.shared_move j) = step s (.shared_copy j) ∧
    step s (.shared_assign_move i j) = step s (.shared_assign_copy i j) ∧
    step s (.weak_move j) = step s (.weak_copy j) ∧
    step s (.weak_assign_move i j) = step s (.weak_assign_copy i j) ∧
    (∀ o m, SharedPtr.ctor_move o m = SharedPtr.ctor_copy o m) ∧
    (∀ a1 a2 t o m, SharedPtr.assign_move a1 a2 t o m = SharedPtr.assign_copy a1 a2 t o m) ∧
    (∀ o m, WeakPtr.ctor_move o m = WeakPtr.ctor_copy o m) ∧
    (∀ a1 a2 t o m, WeakPtr.assign_move a1 a2 t o m = WeakPtr.assign_copy a1 a2 t o m) ∧
    (∀ other b c, s.shared j = some other →
      s.mem.deref other.control_block_ = some (b, c) →
      ∃ s1, step s (.shared_move j) = some s1 ∧
        s1.shareds = s.shareds ++ [some other] ∧ s1.shared j = some other ∧
        s1.weaks = s.weaks ∧
        (s1.mem.heap b).cb.shared_use_count_ = c.shared_use_count_ + 1 ∧
        (s1.mem.heap b).cb.weak_use_count_ = c.weak_use_count_ ∧
        (∀ x, x ≠ b → s1.mem.heap x = s.mem.heap x) ∧
        s1.mem.deleted = s.mem.deleted ∧ s1.mem.freed = s.mem.freed) := by
  refine ⟨rfl, rfl, rfl, rfl, fun _ _ => rfl, fun _ _ _ _ _ => rfl, fun _ _ => rfl,
    fun _ _ _ _ _ => rfl, ?_⟩
  intro other b c ho hd
  refine ⟨s.pushShared (other, s.mem.store b
    { c with shared_use_count_ := c.shared_use_count_ + 1 }), ?_, rfl, ?_, rfl, ?_, ?_, ?_,
    rfl, rfl⟩
  · simp [step, ho, SharedPtr.ctor_move, SharedPtr.GetCB, hd]
  · have hj := (s.shared_eq_some j other).1 ho
    have hlt := (List.getElem?_eq_some.1 hj).1
    rw [State.shared_eq_some]
    simpa [State.pushShared, List.getElem?_append_left hlt] using hj
  · simp [State.pushShared, Mem.store]
  · simp [State.pushShared, Mem.store]
  · intro x hx
    simp [State.pushShared, Mem.store, hx]

theorem C12_move_is_counted_copy_witness :
    ∃ s, run State.init [.shared_raw (some 7)] = some s ∧
      step s (.shared_move 0) = step s (.shared_copy 0) ∧
      ∃ s1, step s (.shared_move 0) = some s1 ∧
        s1.shared 0 = some { ptr_ := some 7, control_block_ := some 0 } ∧
        s1.shared 1 = some { ptr_ := some 7, control_block_ := some 0 } ∧
        (s1.mem.heap 0).cb.shared_use_count_ = 2 :=
  ⟨_, rfl,
    (C12_move_is_counted_copy
      { mem := (SharedPtr.ctor_raw (some 7) Mem.empty).2
        shareds := [some { ptr_ := some 7, control_block_ := some 0 }]
        weaks := [] } 0 0).1,
    by
      obtain ⟨s1, h1, h2, h3, _, h5, _⟩ := (C12_move_is_counted_copy
        { mem := (SharedPtr.ctor_raw (some 7) Mem.empty).2
          shareds := [some { ptr_ := some 7, control_block_ := some 0 }]
          weaks := [] } 0 0).2.2.2.2.2.2.2.2
        { ptr_ := some 7, control_block_ := some 0 } 0
        { shared_use_count_ := 1, weak_use_count_ := 0 } rfl rfl
      refine ⟨s1, h1, h3, ?_, h5⟩
      rw [State.shared_eq_some, h2]
      rfl⟩

/-- C17: the two conversions from a `WeakPtr` to a `SharedPtr` agree.  For every `WeakPtr`
and every memory, `SharedPtr(W)` and `W.Lock()` give the same result, and so do the two
client operations from every state.  When the block of `W` is allocated, both build a handle
on the block of `W` whose stored pointer is null if the strong count is 0 and the stored
pointer of `W` otherwise, add one to the strong count and leave the weak count. -/
theorem C17_weak_to_strong_agree (s : State) (j : Nat) :
    (∀ w m, SharedPtr.ctor_weak w m = w.Lock m) ∧
    step s (.shared_weak j) = step s (.weak_lock j) ∧
    (∀ w b c, s.weak j = some w → s.mem.deref w.control_block_ = some (b, c) →
      ∃ L s1, step s (.shared_weak j) = some s1 ∧ step s (.weak_lock j) = some s1 ∧
        s1.shareds = s.shareds ++ [some L] ∧
        L.GetCB = w.GetCB ∧
        L.Get = (if c.shared_use_count_ = 0 then none else w.ptr_) ∧
        (s1.mem.heap b).cb.shared_use_count_ = c.shared_use_count_ + 1 ∧
        (s1.mem.heap b).cb.weak_use_count_ = c.weak_use_count_ ∧
        (∀ x, x ≠ b → s1.mem.heap x = s.mem.heap x) ∧
        s1.weaks = s.weaks ∧
        s1.mem.deleted = s.mem.deleted ∧ s1.mem.freed = s.mem.freed) := by
  have hagree : ∀ w m, SharedPtr.ctor_weak w m = w.Lock m := by
    intro w m
    rw [ctor_weak_eq_pair, Lock_eq_pair]
  have hstep : step s (.shared_weak j) = step s (.weak_lock j) := by
    simp only [step]
    cases s.weak j with
    | none => rfl
    | some w => simp only [hagree]
  refine ⟨hagree, hstep, ?_⟩
  intro w b c hw hd
  refine ⟨{ ptr_ := if c.shared_use_count_ = 0 then none else w.ptr_,
            control_block_ := w.control_block_ },
    s.pushShared ({ ptr_ := if c.shared_use_count_ = 0 then none else w.ptr_,
                    control_block_ := w.control_block_ },
      s.mem.store b { c with shared_use_count_ := c.shared_use_count_ + 1 }), ?_, ?_, rfl,
    rfl, rfl, ?_, ?_, ?_, rfl, rfl, rfl⟩
  · rw [hstep]
    by_cases h0 : c.shared_use_count_ = 0 <;>
      simp [step, hw, WeakPtr.Lock, WeakPtr.IsExpired, SharedPtr.ctor_pair, hd, h0]
  · by_cases h0 : c.shared_use_count_ = 0 <;>
      simp [step, hw, WeakPtr.Lock, WeakPtr.IsExpired, SharedPtr.ctor_pair, hd, h0]
  · simp [State.pushShared, Mem.store]
  · simp [State.pushShared, Mem.store]
  · intro x hx
    simp [State.pushShared, Mem.store, hx]

theorem C17_weak_to_strong_agree_witness :
    ∃ s, run State.init [.shared_raw (some 7), .weak_shared 0, .shared_dtor 0] = some s ∧
      ∃ L s1, step s (.shared_weak 0) = some s1 ∧ step s (.weak_lock 0) = some s1 ∧
        s1.shareds = s.shareds ++ [some L] ∧ L.Get = none ∧
        (s1.mem.heap 0).cb.shared_use_count_ = 1 :=
  ⟨_, rfl,
    by
      obtain ⟨L, s1, h1, h2, h3, _, h5, h6, _⟩ := (C17_weak_to_strong_agree
        { mem := (((SharedPtr.ctor_raw (some 7) Mem.empty).2.store 0
                    { shared_use_count_ := 1, weak_use_count_ := 1 }).store 0
                    { shared_use_count_ := 1 - 1, weak_use_count_ := 1 }).deletePtr (some 7)
          shareds := [none]
          weaks := [some { ptr_ := some 7, control_block_ := some 0 }] } 0).2.2
        { ptr_ := some 7, control_block_ := some 0 } 0
        { shared_use_count_ := 0, weak_use_count_ := 1 } rfl rfl
      exact ⟨L, s1, h1, h2, h3, h5, h6⟩⟩

theorem Mem.eq_of_fields (m1 m2 : Mem) (hh : ∀ x, m1.heap x = m2.heap x)
    (hn : m1.next = m2.next) (hd : m1.deleted = m2.deleted) (hf : m1.freed = m2.freed) :
    m1 = m2 := by
  cases m1
  cases m2
  simp only [Mem.mk.injEq]
  exact ⟨funext hh, hn, hd, hf⟩

theorem shared_DeleteThis_last (S : SharedPtr) (m : Mem) (b : Nat) (c : ControlBlock)
    (hS : S.control_block_ = some b) (hd : m.deref (some b) = some (b, c))
    (h1 : c.shared_use_count_ = 1) (hw : c.weak_use_count_ ≠ 0) :
    S.DeleteThis m =
      some (S, (m.store b ⟨0, c.weak_use_count_⟩).deletePtr S.ptr_) := by
  simp [SharedPtr.DeleteThis, hS, hd, h1, hw]

theorem shared_DeleteThis_last_free (S : SharedPtr) (m : Mem) (b : Nat) (c : ControlBlock)
    (hS : S.control_block_ = some b) (hd : m.deref (some b) = some (b, c))
    (h1 : c.shared_use_count_ = 1) (hw : c.weak_use_count_ = 0) :
    S.DeleteThis m =
      some (S, ((m.store b ⟨0, 0⟩).deletePtr S.ptr_).deleteBlock b) := by
  simp [SharedPtr.DeleteThis, hS, hd, h1, hw]

theorem shared_DeleteThis_more (S : SharedPtr) (m : Mem) (b : Nat) (c : ControlBlock)
    (hS : S.control_block_ = some b) (hd : m.deref (some b) = some (b, c))
    (h1 : c.shared_use_count_ ≠ 1) :
    S.DeleteThis m = some ({ ptr_ := none, control_block_ := none },
      m.store b ⟨c.shared_use_count_ - 1, c.weak_use_count_⟩) := by
  simp [SharedPtr.DeleteThis, hS, hd, h1]

theorem weak_DeleteThis_last (W : WeakPtr) (m : Mem) (b : Nat) (c : ControlBlock)
    (hW : W.control_block_ = some b) (hd : m.deref (some b) = some (b, c))
    (h1 : c.weak_use_count_ = 1) (hs : c.shared_use_count_ ≠ 0) :
    W.DeleteThis m = some (W, m.store b ⟨c.shared_use_count_, 0⟩) := by
  simp [WeakPtr.DeleteThis, hW, hd, h1, hs]

theorem weak_DeleteThis_last_free (W : WeakPtr) (m : Mem) (b : Nat) (c : ControlBlock)
    (hW : W.control_block_ = some b) (hd : m.deref (some b) = some (b, c))
    (h1 : c.weak_use_count_ = 1) (hs : c.shared_use_count_ = 0) :
    W.DeleteThis m = some (W, (m.store b ⟨0, 0⟩).deleteBlock b) := by
  simp [WeakPtr.DeleteThis, hW, hd, h1, hs]

theorem weak_DeleteThis_more (W : WeakPtr) (m : Mem) (b : Nat) (c : ControlBlock)
    (hW : W.control_block_ = some b) (hd : m.deref (some b) = some (b, c))
    (h1 : c.weak_use_count_ ≠ 1) :
    W.DeleteThis m = some ({ ptr_ := none, control_block_ := none },
      m.store b ⟨c.shared_use_count_, c.weak_use_count_ - 1⟩) := by
  simp [WeakPtr.DeleteThis, hW, hd, h1]

theorem deref_store (m : Mem) (b : Nat) (c : ControlBlock)
    (hal : (m.heap b).allocated = true) : (m.store b c).deref (some b) = some (b, c) := by
  simp [Mem.deref, Mem.store, hal]

theorem deref_store_deletePtr (m : Mem) (b : Nat) (c : ControlBlock) (p : Option Nat)
    (hal : (m.heap b).allocated = true) :
    ((m.store b c).deletePtr p).deref (some b) = some (b, c) := by
  simp [Mem.deref, Mem.store, hal]

/-- On a block with at least one strong and one weak handle, releasing a strong handle and
then a weak handle leaves the same memory as releasing them in the other order. -/
theorem DeleteThis_commute (m : Mem) (S : SharedPtr) (W : WeakPtr) (b : Nat) (c : ControlBlock)
    (hS : S.control_block_ = some b) (hW : W.control_block_ = some b)
    (hd : m.deref (some b) = some (b, c))
    (hs : 1 ≤ c.shared_use_count_) (hw : 1 ≤ c.weak_use_count_) :
    ∃ r1 r2 q1 q2, S.DeleteThis m = some r1 ∧ W.DeleteThis r1.2 = some r2 ∧
      W.DeleteThis m = some q1 ∧ S.DeleteThis q1.2 = some q2 ∧ r2.2 = q2.2 ∧
      (r2.2.heap b).cb = { shared_use_count_ := c.shared_use_count_ - 1,
                           weak_use_count_ := c.weak_use_count_ - 1 } := by
  obtain ⟨_, hal, hc⟩ := deref_eq_some hd
  by_cases h1 : c.shared_use_count_ = 1
  · by_cases h2 : c.weak_use_count_ = 1
    · have e1 := shared_DeleteThis_last S m b c hS hd h1 (by omega)
      have e2 := weak_DeleteThis_last_free W _ b ⟨0, c.weak_use_count_⟩ hW
        (deref_store_deletePtr m b _ S.ptr_ hal) h2 rfl
      have e3 := weak_DeleteThis_last W m b c hW hd h2 (by omega)
      have e4 := shared_DeleteThis_last_free S _ b ⟨c.shared_use_count_, 0⟩ hS
        (deref_store m b _ hal) h1 rfl
      refine ⟨_, _, _, _, e1, e2, e3, e4, ?_, ?_⟩
      · apply Mem.eq_of_fields
        · intro x
          by_cases hx : x = b
          · subst hx; simp [Mem.deleteBlock, Mem.store]
          · simp [Mem.deleteBlock, Mem.store, hx]
        · simp [Mem.deleteBlock, Mem.store]
        · simp [Mem.deleteBlock, Mem.store, Mem.deletePtr_deleted]
        · simp [Mem.deleteBlock, Mem.store]
      · simp [Mem.deleteBlock, Mem.store, h1, h2]
    · have e1 := shared_DeleteThis_last S m b c hS hd h1 (by omega)
      have e2 := weak_DeleteThis_more W _ b ⟨0, c.weak_use_count_⟩ hW
        (deref_store_deletePtr m b _ S.ptr_ hal) h2
      have e3 := weak_DeleteThis_more W m b c hW hd h2
      have e4 := shared_DeleteThis_last S _ b ⟨c.shared_use_count_, c.weak_use_count_ - 1⟩ hS
        (deref_store m b _ hal) h1 (by show c.weak_use_count_ - 1 ≠ 0; omega)
      refine ⟨_, _, _, _, e1, e2, e3, e4, ?_, ?_⟩
      · apply Mem.eq_of_fields
        · intro x
          by_cases hx : x = b
          · subst hx; simp [Mem.store]
          · simp [Mem.store, hx]
        · simp [Mem.store]
        · simp [Mem.store, Mem.deletePtr_deleted]
        · simp [Mem.store]
      · simp [Mem.store, h1]
  · by_cases h2 : c.weak_use_count_ = 1
    · have e1 := shared_DeleteThis_more S m b c hS hd h1
      have e2 := weak_DeleteThis_last W _ b ⟨c.shared_use_count_ - 1, c.weak_use_count_⟩ hW
        (deref_store m b _ hal) h2 (by show c.shared_use_count_ - 1 ≠ 0; omega)
      have e3 := weak_DeleteThis_last W m b c hW hd h2 (by omega)
      have e4 := shared_DeleteThis_more S _ b ⟨c.shared_use_count_, 0⟩ hS
        (deref_store m b _ hal) h1
      refine ⟨_, _, _, _, e1, e2, e3, e4, ?_, ?_⟩
      · apply Mem.eq_of_fields
        · intro x
          by_cases hx : x = b
          · subst hx; simp [Mem.store]
          · simp [Mem.store, hx]
        · simp [Mem.store]
        · simp [Mem.store]
        · simp [Mem.store]
      · simp [Mem.store, h2]
    · have e1 := shared_DeleteThis_more S m b c hS hd h1
      have e2 := weak_DeleteThis_more W _ b ⟨c.shared_use_count_ - 1, c.weak_use_count_⟩
        hW (deref_store m b _ hal) h2
      have e3 := weak_DeleteThis_more W m b c hW hd h2
      have e4 := shared_DeleteThis_more S _ b ⟨c.shared_use_count_, c.weak_use_count_ - 1⟩
        hS (deref_store m b _ hal) h1
      refine ⟨_, _, _, _, e1, e2, e3, e4, ?_, ?_⟩
      · apply Mem.eq_of_fields
        · intro x
          by_cases hx : x = b
          · subst hx; simp [Mem.store]
          · simp [Mem.store, hx]
        · simp [Mem.store]
        · simp [Mem.store]
        · simp [Mem.store]
      · simp [Mem.store]

/-- C15: in a state a client program reaches by public operations, let `S` be a live
`SharedPtr` and `W` a live `WeakPtr` on the same control block.  Destroying `S` then `W` and
destroying `W` then `S` both return and reach the same state: the same counters in every
block, the same allocated blocks, the same log of deleted pointees, the same log of deleted
blocks and the same handle objects. -/
theorem C15_destruction_order_irrelevant (ops : List Op) (s : State)
    (h : run State.init ops = some s) (i j : Nat) (S : SharedPtr) (W : WeakPtr) (b : Nat)
    (hS : s.shared i = some S) (hW : s.weak j = some W)
    (hSb : S.control_block_ = some b) (hWb : W.control_block_ = some b) :
    ∃ s1, run s [.shared_dtor i, .weak_dtor j] = some s1 ∧
      run s [.weak_dtor j, .shared_dtor i] = some s1 ∧
      (s1.mem.heap b).cb.shared_use_count_ = (s.mem.heap b).cb.shared_use_count_ - 1 ∧
      (s1.mem.heap b).cb.weak_use_count_ = (s.mem.heap b).cb.weak_use_count_ - 1 := by
  have hs := reachable_inv ops h
  have hspos : 0 < s.strongOn b := refs_pos _ _ i S ((s.shared_eq_some i S).1 hS) b hSb
  have hwpos : 0 < s.weakOn b := refs_pos _ _ j W ((s.weak_eq_some j W).1 hW) b hWb
  have hd : s.mem.deref (some b) = some (b, (s.mem.heap b).cb) :=
    deref_of_counted hs.counted (by omega)
  have h1 : 1 ≤ (s.mem.heap b).cb.shared_use_count_ := by
    rw [hs.counted.shared_count b]; omega
  have h2 : 1 ≤ (s.mem.heap b).cb.weak_use_count_ := by
    rw [hs.counted.weak_count b]; omega
  obtain ⟨r1, r2, q1, q2, e1, e2, e3, e4, heq, hcb⟩ :=
    DeleteThis_commute s.mem S W b _ hSb hWb hd h1 h2
  have hW1 : (s.endShared i r1).weak j = some W := by
    simpa [State.weak, State.endShared] using hW
  have hS1 : (s.endWeak j q1).shared i = some S := by
    simpa [State.shared, State.endWeak] using hS
  refine ⟨(s.endShared i r1).endWeak j r2, ?_, ?_, ?_, ?_⟩
  · have e2' : W.DeleteThis (s.endShared i r1).mem = some r2 := e2
    simp [run, step, hS, e1, hW1, e2']
  · have e4' : S.DeleteThis (s.endWeak j q1).mem = some q2 := e4
    simp [run, step, hW, e3, hS1, e4']
    simp [State.endShared, State.endWeak, heq]
  · show (r2.2.heap b).cb.shared_use_count_ = _
    rw [hcb]
  · show (r2.2.heap b).cb.weak_use_count_ = _
    rw [hcb]

theorem C15_destruction_order_irrelevant_witness :
    ∃ s, run State.init [.shared_raw (some 7), .weak_shared 0] = some s ∧
      ∃ s1, run s [.shared_dtor 0, .weak_dtor 0] = some s1 ∧
        run s [.weak_dtor 0, .shared_dtor 0] = some s1 ∧
        (s1.mem.heap 0).cb.shared_use_count_ = (s.mem.heap 0).cb.shared_use_count_ - 1 :=
  ⟨_, rfl,
    by
      obtain ⟨s1, h1, h2, h3, _⟩ := C15_destruction_order_irrelevant
        [.shared_raw (some 7), .weak_shared 0] _ rfl 0 0
        { ptr_ := some 7, control_block_ := some 0 }
        { ptr_ := some 7, control_block_ := some 0 } 0 rfl rfl rfl rfl
      exact ⟨s1, h1, h2, h3⟩⟩

/-- C16, as stated, fails for the last owner: `SharedPtr::DeleteThis` empties the handle in
one branch only.  After `SharedPtr a(p); WeakPtr w(a);` the call `a.DeleteThis()` takes the strong count from 1 to
0, deletes `p` and returns with `a.ptr_ == p` and `a.control_block_` still the old block; a
second release through `a` takes the strong count to -1.  With a second owner (strong count
2) the same call returns with both fields null.  Without `w` the first call also deletes the
control block and a second release through `a` dereferences the deleted block. -/
theorem C16_DeleteThis_keeps_last_owner_fields :
    (run State.init [.shared_raw (some 7), .weak_shared 0]).bind (fun s =>
      (SharedPtr.DeleteThis { ptr_ := some 7, control_block_ := some 0 } s.mem).map
        (fun r => (r.1, r.2.deleted, (r.2.heap 0).cb.shared_use_count_,
          (r.2.heap 0).allocated))) =
      some ({ ptr_ := some 7, control_block_ := some 0 }, [7], 0, true) ∧
    (run State.init [.shared_raw (some 7), .weak_shared 0]).bind (fun s =>
      (SharedPtr.DeleteThis { ptr_ := some 7, control_block_ := some 0 } s.mem).bind
        (fun r => (r.1.DeleteThis r.2).map
          (fun r2 => (r2.1, r2.2.deleted, (r2.2.heap 0).cb.shared_use_count_)))) =
      some ({ ptr_ := none, control_block_ := none }, [7], -1) ∧
    (run State.init [.shared_raw (some 7), .shared_copy 0]).bind (fun s =>
      (SharedPtr.DeleteThis { ptr_ := some 7, control_block_ := some 0 } s.mem).map
        (fun r => (r.1, r.2.deleted, (r.2.heap 0).cb.shared_use_count_))) =
      some ({ ptr_ := none, control_block_ := none }, [], 1) ∧
    (run State.init [.shared_raw (some 7)]).bind (fun s =>
      (SharedPtr.DeleteThis { ptr_ := some 7, control_block_ := some 0 } s.mem).bind
        (fun r => (r.1.DeleteThis r.2).map (fun r2 => r2.2.deleted))) = none := by
  refine ⟨by decide, by decide, by decide, by decide⟩

/-- C16, amended: `SharedPtr::DeleteThis` on a handle whose control block is allocated
returns and takes one off the strong count.  When the count it found was not 1, the handle
is emptied (stored value null, control-block pointer null), no pointee is deleted, and a
later release through the emptied handle stops at the null control-block pointer and changes
nothing.  When the handle was the last owner (strong count 1 to 0), its two fields are left
as they were and its pointee is deleted. -/
theorem C16_DeleteThis_empties_in_else_branch (this : SharedPtr) (m : Mem) (b : Nat)
    (c : ControlBlock) (hcb : this.control_block_ = some b)
    (hd : m.deref (some b) = some (b, c)) :
    ∃ r, this.DeleteThis m = some r ∧
      (r.2.heap b).cb.shared_use_count_ = c.shared_use_count_ - 1 ∧
      (r.2.heap b).cb.weak_use_count_ = c.weak_use_count_ ∧
      (c.shared_use_count_ ≠ 1 →
        r.1 = { ptr_ := none, control_block_ := none } ∧ r.1.Get = none ∧ r.1.GetCB = none ∧
        r.2.deleted = m.deleted ∧ r.2.freed = m.freed ∧ r.1.DeleteThis r.2 = none) ∧
      (c.shared_use_count_ = 1 →
        r.1 = this ∧ r.1.Get = this.ptr_ ∧ r.1.GetCB = some b ∧
        r.2.deleted = m.deleted ++ this.ptr_.toList) := by
  by_cases h1 : c.shared_use_count_ = 1
  · by_cases h0 : c.weak_use_count_ = 0
    · refine ⟨_, shared_DeleteThis_last_free this m b c hcb hd h1 h0, ?_, ?_, ?_, ?_⟩
      · simp [Mem.deleteBlock, Mem.store, h1]
      · simp [Mem.deleteBlock, Mem.store, h0]
      · intro hne; exact absurd h1 hne
      · intro _
        exact ⟨rfl, rfl, hcb, by simp [Mem.deleteBlock, Mem.store, Mem.deletePtr_deleted]⟩
    · refine ⟨_, shared_DeleteThis_last this m b c hcb hd h1 h0, ?_, ?_, ?_, ?_⟩
      · simp [Mem.store, h1]
      · simp [Mem.store]
      · intro hne; exact absurd h1 hne
      · intro _
        exact ⟨rfl, rfl, hcb, by simp [Mem.store, Mem.deletePtr_deleted]⟩
  · refine ⟨_, shared_DeleteThis_more this m b c hcb hd h1, ?_, ?_, ?_, ?_⟩
    · simp [Mem.store]
    · simp [Mem.store]
    · intro _
      exact ⟨rfl, rfl, rfl, rfl, rfl, rfl⟩
    · intro heq; exact absurd heq h1

theorem C16_DeleteThis_empties_in_else_branch_witness :
    ∃ s, run State.init [.shared_raw (some 7), .shared_copy 0] = some s ∧
      ∃ r, SharedPtr.DeleteThis { ptr_ := some 7, control_block_ := some 0 } s.mem = some r ∧
        (r.2.heap 0).cb.shared_use_count_ = 1 ∧
        r.1 = { ptr_ := none, control_block_ := none } ∧ r.2.deleted = [] ∧
        r.1.DeleteThis r.2 = none :=
  ⟨_, rfl,
    by
      obtain ⟨r, h1, h2, _, helse, _⟩ := C16_DeleteThis_empties_in_else_branch
        { ptr_ := some 7, control_block_ := some 0 }
        ((SharedPtr.ctor_raw (some 7) Mem.empty).2.store 0
          { shared_use_count_ := 2, weak_use_count_ := 0 })
        0 { shared_use_count_ := 2, weak_use_count_ := 0 } rfl rfl
      obtain ⟨g1, _, _, g4, _, g6⟩ := helse (by decide)
      exact ⟨r, h1, h2, g1, g4, g6⟩⟩

/-- C14, as stated, fails for self-assignment.  After `SharedPtr a(p); WeakPtr w(a);` and the
destructor of `a`, the handle `w` is expired; `w = w` returns at the guard `this == &other`:
the stored value of the resulting handle is still `p`, not null, and the weak count is 1 as
before. -/
theorem C14_self_assignment_keeps_stale_value :
    (run State.init [.shared_raw (some 7), .weak_shared 0, .shared_dtor 0]).bind (fun s =>
      (step s (.weak_assign_copy 0 0)).map (fun s1 =>
        (s.weakIsExpired 0, s1.weak 0, (s.mem.heap 0).cb.weak_use_count_,
          (s1.mem.heap 0).cb.weak_use_count_))) =
      some (some true, some { ptr_ := some 7, control_block_ := some 0 }, 1, 1) := by
  decide

/-- C14, amended: in a state a client program reaches by public operations, let `W` be a
live `WeakPtr` on the block `b` and `T` a live `WeakPtr`.  Copy construction from `W` and
copy assignment `T = W` with `T` another object than `W` return; the resulting handle is on
the block of `W` and its stored value is null if the strong count of `b` is 0 and the stored
value of `W` otherwise; the weak count of `b` is one more than before the construction, and
one more than after the release of `T` for the assignment (one more than before if `T` was
on another block, as before if `T` was on `b`); `W` and every strong count are unchanged.
Copy assignment of `W` to itself changes nothing. -/
theorem C14_weak_copy_amended (ops : List Op) (s : State) (h : run State.init ops = some s)
    (i j : Nat) (T W : WeakPtr) (b : Nat) (hT : s.weak i = some T) (hW : s.weak j = some W)
    (hWb : W.control_block_ = some b) :
    (∃ s1, step s (.weak_copy j) = some s1 ∧
      s1.weaks = s.weaks ++ [some
        { ptr_ := if (s.mem.heap b).cb.shared_use_count_ = 0 then none else W.ptr_,
          control_block_ := W.control_block_ }] ∧
      (s1.mem.heap b).cb.weak_use_count_ = (s.mem.heap b).cb.weak_use_count_ + 1 ∧
      (∀ x, (s1.mem.heap x).cb.shared_use_count_ = (s.mem.heap x).cb.shared_use_count_)) ∧
    (i ≠ j → ∃ r1 s1, T.DeleteThis s.mem = some r1 ∧
      step s (.weak_assign_copy i j) = some s1 ∧
      s1.weak i = some
        { ptr_ := if (s.mem.heap b).cb.shared_use_count_ = 0 then none else W.ptr_,
          control_block_ := W.control_block_ } ∧
      s1.weak j = some W ∧
      (s1.mem.heap b).cb.weak_use_count_ = (r1.2.heap b).cb.weak_use_count_ + 1 ∧
      (T.control_block_ ≠ some b →
        (s1.mem.heap b).cb.weak_use_count_ = (s.mem.heap b).cb.weak_use_count_ + 1) ∧
      (T.control_block_ = some b →
        (s1.mem.heap b).cb.weak_use_count_ = (s.mem.heap b).cb.weak_use_count_) ∧
      (∀ x, (s1.mem.heap x).cb.shared_use_count_ = (s.mem.heap x).cb.shared_use_count_)) ∧
    (i = j → step s (.weak_assign_copy i j) = some s) := by
  have hs := reachable_inv ops h
  have hj := (s.weak_eq_some j W).1 hW
  have hi := (s.weak_eq_some i T).1 hT
  have hwpos : 0 < s.weakOn b := refs_pos _ _ j W hj b hWb
  have hd : s.mem.deref (some b) = some (b, (s.mem.heap b).cb) :=
    deref_of_counted hs.counted (by omega)
  refine ⟨?_, ?_, ?_⟩
  · refine ⟨s.pushWeak (WeakPtr.mk
        (if (s.mem.heap b).cb.shared_use_count_ = 0 then none else W.ptr_) W.control_block_,
      s.mem.store b { (s.mem.heap b).cb with
        weak_use_count_ := (s.mem.heap b).cb.weak_use_count_ + 1 }), ?_, rfl, ?_, ?_⟩
    · have hd1 : s.mem.deref W.control_block_ = some (b, (s.mem.heap b).cb) := by
        rw [hWb]; exact hd
      simp [step, hW, WeakPtr.ctor_copy_eq W s.mem b _ hd1]
    · simp [State.pushWeak, Mem.store]
    · exact weak_inc_frame s.mem _ b _ hd
  · intro hij
    obtain ⟨r1, hr1, hs1⟩ := inv_end_weak hs i T hi
    obtain ⟨g1, _, g2⟩ := weak_DeleteThis_frame T s.mem r1 hr1
    have hj1 : (s.endWeak i r1).weaks[j]? = some (some W) := by
      simpa [State.endWeak, List.getElem?_set_ne hij] using hj
    obtain ⟨b1, hb1, hpos1, hd1⟩ := deref_live_weak hs1 hj1
    have hbb : b1 = b := by
      rw [hWb] at hb1; exact (Option.some.inj hb1).symm
    subst hbb
    have hd2 : r1.2.deref (some b1) = some (b1, (r1.2.heap b1).cb) := by
      rw [hWb] at hd1; exact hd1
    have hlt := (List.getElem?_eq_some.1 hi).1
    have hst : step s (.weak_assign_copy i j) = some (s.setWeak i
        ({ ptr_ := if (s.mem.heap b1).cb.shared_use_count_ = 0 then none else W.ptr_,
           control_block_ := W.control_block_ },
         r1.2.store b1 { (r1.2.heap b1).cb with
           weak_use_count_ := (r1.2.heap b1).cb.weak_use_count_ + 1 })) := by
      simp [step, hT, hW, WeakPtr.assign_copy, hij, hr1, WeakPtr.IsExpired, hWb, hd2, g2 b1]
    have hcnt := refs_set WeakPtr.control_block_ s.weaks i (some T) none hi b1
    have hw0 := hs.counted.weak_count b1
    have hw1 : (r1.2.heap b1).cb.weak_use_count_ = ((s.endWeak i r1).weakOn b1 : Int) :=
      hs1.counted.weak_count b1
    simp only [State.weakOn, State.endWeak] at hw0 hw1
    refine ⟨r1, _, hr1, hst, ?_, ?_, ?_, ?_, ?_, ?_⟩
    · simp [State.weak, State.setWeak, List.getElem?_set_self hlt]
    · rw [State.weak_eq_some]
      simpa [State.setWeak, List.getElem?_set_ne hij] using hj
    · simp [State.setWeak, Mem.store]
    · intro hne
      simp only [slotOn, if_neg hne, Nat.add_zero] at hcnt
      simp only [State.setWeak, Mem.store, if_true]
      rw [hw1, hw0]
      omega
    · intro heq
      simp only [slotOn, if_pos heq, Nat.add_zero] at hcnt
      simp only [State.setWeak, Mem.store, if_true]
      rw [hw1, hw0]
      omega
    · intro x
      rw [← g2 x]
      exact weak_inc_frame r1.2 _ b1 _ hd2 x
  · intro hij
    subst hij
    have : s.setWeak i (T, s.mem) = s := by
      simp [State.setWeak, set_same _ _ _ hi]
    simp [step, hT, WeakPtr.assign_copy, this]

theorem C14_weak_copy_amended_witness :
    ∃ s, run State.init [.shared_raw (some 7), .weak_shared 0, .weak_default, .shared_dtor 0]
        = some s ∧
      ∃ s1, step s (.weak_assign_copy 1 0) = some s1 ∧
        s1.weak 1 = some { ptr_ := none, control_block_ := some 0 } ∧
        (s1.mem.heap 0).cb.weak_use_count_ = (s.mem.heap 0).cb.weak_use_count_ + 1 :=
  ⟨_, rfl,
    by
      obtain ⟨_, hassign, _⟩ := C14_weak_copy_amended
        [.shared_raw (some 7), .weak_shared 0, .weak_default, .shared_dtor 0] _ rfl 1 0
        { ptr_ := none, control_block_ := some 1 }
        { ptr_ := some 7, control_block_ := some 0 } 0 rfl rfl rfl
      obtain ⟨r1, s1, _, h2, h3, _, _, h6, _⟩ := hassign (by decide)
      exact ⟨s1, h2, h3, h6 (by decide)⟩⟩

/-! ## Pointee invariant -/

theorem ptrInv_init : PtrInv [] State.init := by
  constructor
  · intro q c hq
    rcases hq with ⟨i, h, hi, _⟩ | ⟨i, w, hi, _⟩ <;> simp [State.init] at hi
  · intro q c c1 hq
    rcases hq with ⟨i, h, hi, _⟩ | ⟨i, w, hi, _⟩ <;> simp [State.init] at hi

theorem ptrInv_of_shape {vals new : List Nat} {s s1 : State} (hp : PtrInv vals s)
    (hnew : ∀ q ∈ new, q ∉ vals) (cnew : Option Nat)
    (hshape : ∀ q c, s1.holds q c → s.holds q c ∨ (q ∈ new ∧ c = cnew)) :
    PtrInv (new ++ vals) s1 := by
  constructor
  · intro q c hq
    rcases hshape q c hq with h1 | ⟨h1, _⟩
    · exact List.mem_append_right _ (hp.known q c h1)
    · exact List.mem_append_left _ h1
  · intro q c c1 hq hq1
    rcases hshape q c hq with h1 | ⟨h1, h2⟩
    · rcases hshape q c1 hq1 with g1 | ⟨g1, _⟩
      · exact hp.unique q c c1 h1 g1
      · exact absurd (hp.known q c h1) (hnew q g1)
    · rcases hshape q c1 hq1 with g1 | ⟨_, g2⟩
      · exact absurd (hp.known q c1 g1) (hnew q h1)
      · rw [h2, g2]

theorem shape_pushShared (s : State) (r : SharedPtr × Mem) (new : List Nat)
    (cnew : Option Nat)
    (hk : ∀ q, r.1.ptr_ = some q →
      s.holds q r.1.control_block_ ∨ (q ∈ new ∧ r.1.control_block_ = cnew)) :
    ∀ q c, (s.pushShared r).holds q c → s.holds q c ∨ (q ∈ new ∧ c = cnew) := by
  intro q c hq
  rcases hq with ⟨i, h, hi, hptr, hcb⟩ | ⟨i, w, hi, hptr, hcb⟩
  · rcases live_push _ _ _ _ hi with h1 | h1
    · exact Or.inl (Or.inl ⟨i, h, h1, hptr, hcb⟩)
    · subst h1; subst hcb; exact hk q hptr
  · exact Or.inl (Or.inr ⟨i, w, hi, hptr, hcb⟩)

theorem shape_setShared (s : State) (n : Nat) (r : SharedPtr × Mem) (new : List Nat)
    (cnew : Option Nat)
    (hk : ∀ q, r.1.ptr_ = some q →
      s.holds q r.1.control_block_ ∨ (q ∈ new ∧ r.1.control_block_ = cnew)) :
    ∀ q c, (s.setShared n r).holds q c → s.holds q c ∨ (q ∈ new ∧ c = cnew) := by
  intro q c hq
  rcases hq with ⟨i, h, hi, hptr, hcb⟩ | ⟨i, w, hi, hptr, hcb⟩
  · rcases live_fill _ _ _ _ _ hi with h1 | h1
    · exact Or.inl (Or.inl ⟨i, h, h1, hptr, hcb⟩)
    · subst h1; subst hcb; exact hk q hptr
  · exact Or.inl (Or.inr ⟨i, w, hi, hptr, hcb⟩)

theorem shape_endShared (s : State) (n : Nat) (r : SharedPtr × Mem) (new : List Nat)
    (cnew : Option Nat) :
    ∀ q c, (s.endShared n r).holds q c → s.holds q c ∨ (q ∈ new ∧ c = cnew) := by
  intro q c hq
  rcases hq with ⟨i, h, hi, hptr, hcb⟩ | ⟨i, w, hi, hptr, hcb⟩
  · rcases live_set _ _ _ _ _ hi with h1 | h1
    · exact Or.inl (Or.inl ⟨i, h, h1, hptr, hcb⟩)
    · exact absurd h1 (by simp)
  · exact Or.inl (Or.inr ⟨i, w, hi, hptr, hcb⟩)

theorem shape_pushWeak (s : State) (r : WeakPtr × Mem) (new : List Nat)
    (cnew : Option Nat)
    (hk : ∀ q, r.1.ptr_ = some q →
      s.holds q r.1.control_block_ ∨ (q ∈ new ∧ r.1.control_block_ = cnew)) :
    ∀ q c, (s.pushWeak r).holds q c → s.holds q c ∨ (q ∈ new ∧ c = cnew) := by
  intro q c hq
  rcases hq with ⟨i, h, hi, hptr, hcb⟩ | ⟨i, w, hi, hptr, hcb⟩
  · exact Or.inl (Or.inl ⟨i, h, hi, hptr, hcb⟩)
  · rcases live_push _ _ _ _ hi with h1 | h1
    · exact Or.inl (Or.inr ⟨i, w, h1, hptr, hcb⟩)
    · subst h1; subst hcb; exact hk q hptr

theorem shape_setWeak (s : State) (n : Nat) (r : WeakPtr × Mem) (new : List Nat)
    (cnew : Option Nat)
    (hk : ∀ q, r.1.ptr_ = some q →
      s.holds q r.1.control_block_ ∨ (q ∈ new ∧ r.1.control_block_ = cnew)) :
    ∀ q c, (s.setWeak n r).holds q c → s.holds q c ∨ (q ∈ new ∧ c = cnew) := by
  intro q c hq
  rcases hq with ⟨i, h, hi, hptr, hcb⟩ | ⟨i, w, hi, hptr, hcb⟩
  · exact Or.inl (Or.inl ⟨i, h, hi, hptr, hcb⟩)
  · rcases live_fill _ _ _ _ _ hi with h1 | h1
    · exact Or.inl (Or.inr ⟨i, w, h1, hptr, hcb⟩)
    · subst h1; subst hcb; exact hk q hptr

theorem shape_endWeak (s : State) (n : Nat) (r : WeakPtr × Mem) (new : List Nat)
    (cnew : Option Nat) :
    ∀ q c, (s.endWeak n r).holds q c → s.holds q c ∨ (q ∈ new ∧ c = cnew) := by
  intro q c hq
  rcases hq with ⟨i, h, hi, hptr, hcb⟩ | ⟨i, w, hi, hptr, hcb⟩
  · exact Or.inl (Or.inl ⟨i, h, hi, hptr, hcb⟩)
  · rcases live_set _ _ _ _ _ hi with h1 | h1
    · exact Or.inl (Or.inr ⟨i, w, h1, hptr, hcb⟩)
    · exact absurd h1 (by simp)

theorem ctor_pair_fst (ptr cb : Option Nat) (m : Mem) (r : SharedPtr × Mem)
    (h : SharedPtr.ctor_pair ptr cb m = some r) :
    r.1 = { ptr_ := ptr, control_block_ := cb } := by
  unfold SharedPtr.ctor_pair at h
  split at h
  · exact absurd h (by simp)
  · cases h; rfl

theorem shared_DeleteThis_next (this : SharedPtr) (m : Mem) (r : SharedPtr × Mem)
    (h : this.DeleteThis m = some r) : r.2.next = m.next := by
  unfold SharedPtr.DeleteThis at h
  split at h
  · exact absurd h (by simp)
  · split at h
    · split at h <;> cases h <;> simp [Mem.deleteBlock, Mem.store]
    · cases h; rfl

theorem Reset_fst (this : SharedPtr) (ptr : Option Nat) (m : Mem) (r : SharedPtr × Mem)
    (h : this.Reset ptr m = some r) :
    r.1 = { ptr_ := ptr, control_block_ := some m.next } := by
  unfold SharedPtr.Reset at h
  cases h1 : this.DeleteThis m with
  | none => rw [h1] at h; exact absurd h (by simp)
  | some r1 =>
    rw [h1] at h
    cases h
    simp [Mem.newBlock, shared_DeleteThis_next this m r1 h1]

theorem shared_assign_fst (i j : Nat) (this other : SharedPtr) (m : Mem) (r : SharedPtr × Mem)
    (h : SharedPtr.assign_copy i j this other m = some r) :
    r.1 = this ∨ r.1 = { ptr_ := other.ptr_, control_block_ := other.control_block_ } := by
  unfold SharedPtr.assign_copy at h
  split at h
  · cases h; exact Or.inl rfl
  · right
    cases h1 : this.DeleteThis m with
    | none => rw [h1] at h; exact absurd h (by simp)
    | some r1 =>
      rw [h1] at h
      exact ctor_pair_fst other.ptr_ other.control_block_ r1.2 r h

theorem weak_ctor_copy_fst (other : WeakPtr) (m : Mem) (r : WeakPtr × Mem)
    (h : WeakPtr.ctor_copy other m = some r) :
    r.1.control_block_ = other.control_block_ ∧
      (r.1.ptr_ = none ∨ r.1.ptr_ = other.ptr_) := by
  cases hd : m.deref other.control_block_ with
  | none => simp [WeakPtr.ctor_copy, WeakPtr.IsExpired, hd] at h
  | some bc =>
    obtain ⟨b, c⟩ := bc
    rw [WeakPtr.ctor_copy_eq other m b c hd] at h
    cases h
    refine ⟨rfl, ?_⟩
    by_cases h0 : c.shared_use_count_ = 0 <;> simp [h0]

theorem weak_ctor_shared_fst (other : SharedPtr) (m : Mem) (r : WeakPtr × Mem)
    (h : WeakPtr.ctor_shared other m = some r) :
    r.1 = { ptr_ := other.ptr_, control_block_ := other.control_block_ } := by
  unfold WeakPtr.ctor_shared at h
  split at h
  · exact absurd h (by simp)
  · cases h; rfl

theorem weak_assign_fst (i j : Nat) (this other : WeakPtr) (m : Mem) (r : WeakPtr × Mem)
    (h : WeakPtr.assign_copy i j this other m = some r) :
    r.1 = this ∨ (r.1.control_block_ = other.control_block_ ∧
      (r.1.ptr_ = none ∨ r.1.ptr_ = other.ptr_)) := by
  unfold WeakPtr.assign_copy at h
  split at h
  · cases h; exact Or.inl rfl
  · right
    cases h1 : this.DeleteThis m with
    | none => rw [h1] at h; exact absurd h (by simp)
    | some r1 =>
      rw [h1] at h
      exact weak_ctor_copy_fst other r1.2 r h

theorem holds_shared {s : State} {j : Nat} {h : SharedPtr} (hj : s.shareds[j]? = some (some h))
    {q : Nat} (hq : h.ptr_ = some q) : s.holds q h.control_block_ :=
  Or.inl ⟨j, h, hj, hq, rfl⟩

theorem holds_weak {s : State} {j : Nat} {w : WeakPtr} (hj : s.weaks[j]? = some (some w))
    {q : Nat} (hq : w.ptr_ = some q) : s.holds q w.control_block_ :=
  Or.inr ⟨j, w, hj, hq, rfl⟩

/-- One public operation keeps the pointee invariant, provided the raw value it hands over
has not been handed over before. -/
theorem ptr_step {vals : List Nat} {s s1 : State} {op : Op} (hp : PtrInv vals s)
    (hst : step s op = some s1) (hfresh : ∀ q ∈ rawValues [op], q ∉ vals) :
    PtrInv (rawValues [op] ++ vals) s1 := by
  refine ptrInv_of_shape hp hfresh (some s.mem.next) ?_
  have hready := ready_of_step hst
  cases op with
  | shared_default =>
    simp only [step, Option.some.injEq] at hst
    subst hst
    exact shape_pushShared s _ _ _ (fun q hq => by simp [SharedPtr.ctor_default] at hq)
  | shared_raw ptr =>
    simp only [step, Option.some.injEq] at hst
    subst hst
    refine shape_pushShared s _ _ _ (fun q hq => Or.inr ⟨?_, rfl⟩)
    have : ptr = some q := hq
    subst this
    simp [rawValues]
  | shared_copy j =>
    obtain ⟨other, ho, hj⟩ := shared_of_isSome s j hready
    simp only [step, ho] at hst
    obtain ⟨r, hr, hs1⟩ := Option.map_eq_some'.1 hst
    subst hs1
    have hf := ctor_pair_fst other.ptr_ other.control_block_ s.mem r hr
    refine shape_pushShared s _ _ _ (fun q hq => Or.inl ?_)
    rw [hf] at hq ⊢
    exact holds_shared hj hq
  | shared_move j =>
    obtain ⟨other, ho, hj⟩ := shared_of_isSome s j hready
    simp only [step, ho] at hst
    obtain ⟨r, hr, hs1⟩ := Option.map_eq_some'.1 hst
    subst hs1
    have hf := ctor_pair_fst other.ptr_ other.control_block_ s.mem r hr
    refine shape_pushShared s _ _ _ (fun q hq => Or.inl ?_)
    rw [hf] at hq ⊢
    exact holds_shared hj hq
  | shared_weak j =>
    obtain ⟨other, ho, hj⟩ := weak_of_isSome s j hready
    simp only [step, ho] at hst
    obtain ⟨r, hr, hs1⟩ := Option.map_eq_some'.1 hst
    subst hs1
    rw [ctor_weak_eq_pair] at hr
    have hf := ctor_pair_fst _ _ s.mem r hr
    refine shape_pushShared s _ _ _ (fun q hq => Or.inl ?_)
    rw [hf] at hq ⊢
    by_cases he : other.IsExpired s.mem = some true
    · simp [he] at hq
    · simp only [he, if_false] at hq
      exact holds_weak hj hq
  | shared_assign_copy i j =>
    simp only [ready, Bool.and_eq_true] at hready
    obtain ⟨this, ht, hi⟩ := shared_of_isSome s i hready.1
    obtain ⟨other, ho, hj⟩ := shared_of_isSome s j hready.2
    simp only [step, ht, ho] at hst
    obtain ⟨r, hr, hs1⟩ := Option.map_eq_some'.1 hst
    subst hs1
    refine shape_setShared s i _ _ _ (fun q hq => Or.inl ?_)
    rcases shared_assign_fst i j this other s.mem r hr with hf | hf
    · rw [hf] at hq ⊢
      exact holds_shared hi hq
    · rw [hf] at hq ⊢
      exact holds_shared hj hq
  | shared_assign_move i j =>
    simp only [ready, Bool.and_eq_true] at hready
    obtain ⟨this, ht, hi⟩ := shared_of_isSome s i hready.1
    obtain ⟨other, ho, hj⟩ := shared_of_isSome s j hready.2
    simp only [step, ht, ho] at hst
    obtain ⟨r, hr, hs1⟩ := Option.map_eq_some'.1 hst
    subst hs1
    refine shape_setShared s i _ _ _ (fun q hq => Or.inl ?_)
    rcases shared_assign_fst i j this other s.mem r hr with hf | hf
    · rw [hf] at hq ⊢
      exact holds_shared hi hq
    · rw [hf] at hq ⊢
      exact holds_shared hj hq
  | shared_reset i ptr =>
    obtain ⟨this, ht, hi⟩ := shared_of_isSome s i hready
    simp only [step, ht] at hst
    obtain ⟨r, hr, hs1⟩ := Option.map_eq_some'.1 hst
    subst hs1
    have hf := Reset_fst this ptr s.mem r hr
    refine shape_setShared s i _ _ _ (fun q hq => Or.inr ?_)
    rw [hf] at hq ⊢
    have : ptr = some q := hq
    subst this
    exact ⟨by simp [rawValues], rfl⟩
  | shared_dtor i =>
    obtain ⟨this, ht, hi⟩ := shared_of_isSome s i hready
    simp only [step, ht] at hst
    obtain ⟨r, hr, hs1⟩ := Option.map_eq_some'.1 hst
    subst hs1
    exact shape_endShared s i r _ _
  | weak_default =>
    simp only [step, Option.some.injEq] at hst
    subst hst
    exact shape_pushWeak s _ _ _ (fun q hq => by simp [WeakPtr.ctor_default] at hq)
  | weak_copy j =>
    obtain ⟨other, ho, hj⟩ := weak_of_isSome s j hready
    simp only [step, ho] at hst
    obtain ⟨r, hr, hs1⟩ := Option.map_eq_some'.1 hst
    subst hs1
    obtain ⟨hcb, hptr⟩ := weak_ctor_copy_fst other s.mem r hr
    refine shape_pushWeak s _ _ _ (fun q hq => Or.inl ?_)
    rw [hcb]
    rcases hptr with h0 | h0
    · rw [h0] at hq; exact absurd hq (by simp)
    · rw [h0] at hq; exact holds_weak hj hq
  | weak_move j =>
    obtain ⟨other, ho, hj⟩ := weak_of_isSome s j hready
    simp only [step, ho] at hst
    obtain ⟨r, hr, hs1⟩ := Option.map_eq_some'.1 hst
    subst hs1
    obtain ⟨hcb, hptr⟩ := weak_ctor_copy_fst other s.mem r hr
    refine shape_pushWeak s _ _ _ (fun q hq => Or.inl ?_)
    rw [hcb]
    rcases hptr with h0 | h0
    · rw [h0] at hq; exact absurd hq (by simp)
    · rw [h0] at hq; exact holds_weak hj hq
  | weak_shared j =>
    obtain ⟨other, ho, hj⟩ := shared_of_isSome s j hready
    simp only [step, ho] at hst
    obtain ⟨r, hr, hs1⟩ := Option.map_eq_some'.1 hst
    subst hs1
    have hf := weak_ctor_shared_fst other s.mem r hr
    refine shape_pushWeak s _ _ _ (fun q hq => Or.inl ?_)
    rw [hf] at hq ⊢
    exact holds_shared hj hq
  | weak_assign_copy i j =>
    simp only [ready, Bool.and_eq_true] at hready
    obtain ⟨this, ht, hi⟩ := weak_of_isSome s i hready.1
    obtain ⟨other, ho, hj⟩ := weak_of_isSome s j hready.2
    simp only [step, ht, ho] at hst
    obtain ⟨r, hr, hs1⟩ := Option.map_eq_some'.1 hst
    subst hs1
    refine shape_setWeak s i _ _ _ (fun q hq => Or.inl ?_)
    rcases weak_assign_fst i j this other s.mem r hr with hf | ⟨hcb, hptr⟩
    · rw [hf] at hq ⊢
      exact holds_weak hi hq
    · rw [hcb]
      rcases hptr with h0 | h0
      · rw [h0] at hq; exact absurd hq (by simp)
      · rw [h0] at hq; exact holds_weak hj hq
  | weak_assign_move i j =>
    simp only [ready, Bool.and_eq_true] at hready
    obtain ⟨this, ht, hi⟩ := weak_of_isSome s i hready.1
    obtain ⟨other, ho, hj⟩ := weak_of_isSome s j hready.2
    simp only [step, ht, ho] at hst
    obtain ⟨r, hr, hs1⟩ := Option.map_eq_some'.1 hst
    subst hs1
    refine shape_setWeak s i _ _ _ (fun q hq => Or.inl ?_)
    rcases weak_assign_fst i j this other s.mem r hr with hf | ⟨hcb, hptr⟩
    · rw [hf] at hq ⊢
      exact holds_weak hi hq
    · rw [hcb]
      rcases hptr with h0 | h0
      · rw [h0] at hq; exact absurd hq (by simp)
      · rw [h0] at hq; exact holds_weak hj hq
  | weak_lock i =>
    obtain ⟨this, ht, hi⟩ := weak_of_isSome s i hready
    simp only [step, ht] at hst
    obtain ⟨r, hr, hs1⟩ := Option.map_eq_some'.1 hst
    subst hs1
    rw [Lock_eq_pair] at hr
    have hf := ctor_pair_fst _ _ s.mem r hr
    refine shape_pushShared s _ _ _ (fun q hq => Or.inl ?_)
    rw [hf] at hq ⊢
    by_cases he : this.IsExpired s.mem = some true
    · simp [he] at hq
    · simp only [he, if_false] at hq
      exact holds_weak hi hq
  | weak_dtor i =>
    obtain ⟨this, ht, hi⟩ := weak_of_isSome s i hready
    simp only [step, ht] at hst
    obtain ⟨r, hr, hs1⟩ := Option.map_eq_some'.1 hst
    subst hs1
    exact shape_endWeak s i r _ _

theorem rawValues_cons (op : Op) (ops : List Op) :
    rawValues (op :: ops) = rawValues [op] ++ rawValues ops := by
  cases op with
  | shared_raw ptr => cases ptr <;> simp [rawValues]
  | shared_reset i ptr => cases ptr <;> simp [rawValues]
  | _ => simp [rawValues]

/-- A run of public operations that hands over each raw value at most once keeps the
pointee invariant. -/
theorem ptr_run {vals : List Nat} {s s1 : State} (hp : PtrInv vals s) (ops : List Op)
    (h : run s ops = some s1) (hnd : (rawValues ops).Nodup)
    (hfresh : ∀ q ∈ rawValues ops, q ∉ vals) : ∃ vals1, PtrInv vals1 s1 := by
  induction ops generalizing s vals with
  | nil => simp [run] at h; rw [← h]; exact ⟨vals, hp⟩
  | cons op ops ih =>
    simp only [run] at h
    rw [rawValues_cons] at hnd hfresh
    cases hst : step s op with
    | none => rw [hst] at h; exact absurd h (by simp)
    | some s2 =>
      rw [hst] at h
      have hp2 := ptr_step hp hst (fun q hq => hfresh q (List.mem_append_left _ hq))
      obtain ⟨hn1, hn2, hdis⟩ := List.nodup_append.1 hnd
      refine ih hp2 h hn2 ?_
      intro q hq hmem
      rcases List.mem_append.1 hmem with h1 | h1
      · exact hdis h1 hq
      · exact hfresh q (List.mem_append_right _ hq) h1

theorem reachable_ptrInv {s : State} (ops : List Op) (h : run State.init ops = some s)
    (hnd : (rawValues ops).Nodup) : ∃ vals, PtrInv vals s :=
  ptr_run ptrInv_init ops h hnd (fun _ _ hm => by simp at hm)

/-- What `SharedPtr::DeleteThis` does to the memory: one off the strong counter of its
block, the pointee deleted if that counter was 1, every other block untouched. -/
theorem shared_DeleteThis_effect (this : SharedPtr) (m : Mem) (b : Nat) (c : ControlBlock)
    (r : SharedPtr × Mem) (hcb : this.control_block_ = some b)
    (hd : m.deref (some b) = some (b, c)) (h : this.DeleteThis m = some r) :
    (r.2.heap b).cb.shared_use_count_ = c.shared_use_count_ - 1 ∧
    (r.2.heap b).cb.weak_use_count_ = c.weak_use_count_ ∧
    (∀ x, x ≠ b → r.2.heap x = m.heap x) ∧
    r.2.deleted = m.deleted ++ (if c.shared_use_count_ = 1 then this.ptr_.toList else []) := by
  by_cases h1 : c.shared_use_count_ = 1
  · by_cases h0 : c.weak_use_count_ = 0
    · rw [shared_DeleteThis_last_free this m b c hcb hd h1 h0] at h
      cases h
      refine ⟨by simp [Mem.deleteBlock, Mem.store, h1], by simp [Mem.deleteBlock, Mem.store, h0],
        ?_, by simp [Mem.deleteBlock, Mem.store, Mem.deletePtr_deleted, h1]⟩
      intro x hx
      simp [Mem.deleteBlock, Mem.store, hx]
    · rw [shared_DeleteThis_last this m b c hcb hd h1 h0] at h
      cases h
      refine ⟨by simp [Mem.store, h1], by simp [Mem.store], ?_,
        by simp [Mem.store, Mem.deletePtr_deleted, h1]⟩
      intro x hx
      simp [Mem.store, hx]
  · rw [shared_DeleteThis_more this m b c hcb hd h1] at h
    cases h
    refine ⟨by simp [Mem.store], by simp [Mem.store], ?_, by simp [Mem.store, h1]⟩
    intro x hx
    simp [Mem.store, hx]

/-- C13, as stated, fails when one raw value has two owners.  After `SharedPtr a(p);
SharedPtr b(p);` the two handles are distinct, on two blocks with strong count 1 each;
`a = b` releases `a` as the last owner of its block and so deletes `p`, which is the
pointee of `b`. -/
theorem C13_assign_deletes_shared_raw_value :
    (run State.init [.shared_raw (some 7), .shared_raw (some 7)]).bind (fun s =>
      (step s (.shared_assign_copy 0 1)).map (fun s1 =>
        (s.shared 0, s.shared 1, s.timesDeleted 7, s1.shared 1, s1.timesDeleted 7))) =
      some (some { ptr_ := some 7, control_block_ := some 0 },
            some { ptr_ := some 7, control_block_ := some 1 }, 0,
            some { ptr_ := some 7, control_block_ := some 1 }, 1) := by
  decide

/-- C13, amended: in a state a client program reaches by public operations, let `a` and `b`
be live `SharedPtr` objects.  If they are the same
object, `a = b` leaves the state as it is.  If they are distinct, `a = b` returns; first
`a` is released (the strong count of its old block drops by one and its old pointee is
deleted exactly if that count was 1), then `a` takes the pointer and the block of `b` and
the strong count of that block grows by one (net one more if `a` was on another block, net
unchanged if `a` was on the block of `b`); afterwards the strong count of the block of `b`
is the number of live `SharedPtr` objects on it, the block is allocated and not in the log of
deleted blocks and `b` is unchanged; and when the program has handed each raw value to at
most one `SharedPtr(std::string*)` or `Reset` call, the number of deletions of the pointee
of `b` is as before. -/
theorem C13_shared_copy_assign_amended (ops : List Op) (s : State)
    (h : run State.init ops = some s)
    (i j : Nat) (a b : SharedPtr)
    (ha : s.shared i = some a) (hb : s.shared j = some b) :
    (i = j → step s (.shared_assign_copy i j) = some s) ∧
    (i ≠ j → ∃ ba bb r1 s1, a.control_block_ = some ba ∧ b.control_block_ = some bb ∧
      a.DeleteThis s.mem = some r1 ∧
      (r1.2.heap ba).cb.shared_use_count_ = (s.mem.heap ba).cb.shared_use_count_ - 1 ∧
      r1.2.deleted = s.mem.deleted ++
        (if (s.mem.heap ba).cb.shared_use_count_ = 1 then a.ptr_.toList else []) ∧
      step s (.shared_assign_copy i j) = some s1 ∧
      s1.shared i = some { ptr_ := b.ptr_, control_block_ := b.control_block_ } ∧
      s1.shared j = some b ∧
      (s1.mem.heap bb).cb.shared_use_count_ = (r1.2.heap bb).cb.shared_use_count_ + 1 ∧
      (ba ≠ bb →
        (s1.mem.heap ba).cb.shared_use_count_ = (s.mem.heap ba).cb.shared_use_count_ - 1 ∧
        (s1.mem.heap bb).cb.shared_use_count_ = (s.mem.heap bb).cb.shared_use_count_ + 1) ∧
      (ba = bb →
        (s1.mem.heap bb).cb.shared_use_count_ = (s.mem.heap bb).cb.shared_use_count_) ∧
      s1.mem.deleted = r1.2.deleted ∧
      (s1.mem.heap bb).cb.shared_use_count_ = (s1.strongOn bb : Int) ∧
      (s1.mem.heap bb).allocated = true ∧ bb ∉ s1.mem.freed ∧
      ((rawValues ops).Nodup →
        ∀ q, b.ptr_ = some q → s1.timesDeleted q = s.timesDeleted q)) := by
  have hs := reachable_inv ops h
  have hi := (s.shared_eq_some i a).1 ha
  have hj := (s.shared_eq_some j b).1 hb
  refine ⟨?_, ?_⟩
  · intro hij
    subst hij
    have : s.setShared i (a, s.mem) = s := by
      simp [State.setShared, set_same _ _ _ hi]
    simp [step, ha, SharedPtr.assign_copy, this]
  · intro hij
    obtain ⟨ba, hba, hapos, hda⟩ := deref_live_shared hs hi
    obtain ⟨bb, hbb, hbpos, _⟩ := deref_live_shared hs hj
    rw [hba] at hda
    obtain ⟨r1, hr1, hs1⟩ := inv_end_shared hs i a hi
    obtain ⟨e1, _, e3, e4⟩ := shared_DeleteThis_effect a s.mem ba _ r1 hba hda hr1
    have hj1 : (s.endShared i r1).shareds[j]? = some (some b) := by
      simpa [State.endShared, List.getElem?_set_ne hij] using hj
    obtain ⟨b2, hb2, hpos2, hd2⟩ := deref_live_shared hs1 hj1
    have hbe : b2 = bb := by
      rw [hbb] at hb2; exact (Option.some.inj hb2).symm
    subst hbe
    have hd3 : r1.2.deref b.control_block_ = some (b2, (r1.2.heap b2).cb) := hd2
    have hlt := (List.getElem?_eq_some.1 hi).1
    obtain ⟨s1, hdef⟩ : ∃ s1 : State, s1 = s.setShared i
        ({ ptr_ := b.ptr_, control_block_ := b.control_block_ },
         r1.2.store b2 { (r1.2.heap b2).cb with
           shared_use_count_ := (r1.2.heap b2).cb.shared_use_count_ + 1 }) := ⟨_, rfl⟩
    have hst : step s (.shared_assign_copy i j) = some s1 := by
      rw [hdef]
      simp [step, ha, hb, SharedPtr.assign_copy, hij, hr1, hd3]
    have hmem : s1.mem = r1.2.store b2 { (r1.2.heap b2).cb with
        shared_use_count_ := (r1.2.heap b2).cb.shared_use_count_ + 1 } := by
      rw [hdef]; rfl
    have hsh : s1.shareds = s.shareds.set i
        (some { ptr_ := b.ptr_, control_block_ := b.control_block_ }) := by
      rw [hdef]; rfl
    have hinv1 := step_preserves hs hst
    have hjf : s1.shareds[j]? = some (some b) := by
      rw [hsh, List.getElem?_set_ne hij]; exact hj
    have hpos3 : 0 < s1.strongOn b2 := refs_pos _ _ j b hjf b2 hbb
    have hal : (s1.mem.heap b2).allocated = true := (hinv1.counted.alloc b2).2 (by omega)
    have hcnt := refs_set SharedPtr.control_block_ s.shareds i (some a) none hi ba
    simp only [slotOn, hba, if_true, Nat.add_zero] at hcnt
    refine ⟨ba, b2, r1, s1, hba, hbb, hr1, e1, e4, hst, ?_, ?_, ?_, ?_, ?_, ?_, ?_, hal, ?_, ?_⟩
    · rw [State.shared_eq_some, hsh, List.getElem?_set_self hlt]
    · rw [State.shared_eq_some]; exact hjf
    · rw [hmem]; simp [Mem.store]
    · intro hne
      refine ⟨?_, ?_⟩
      · rw [hmem]
        simp only [Mem.store, if_neg hne]
        exact e1
      · rw [hmem]
        simp only [Mem.store, if_true]
        rw [e3 b2 (Ne.symm hne)]
    · intro heq
      subst heq
      rw [hmem]
      simp only [Mem.store, if_true]
      rw [e1]
      ring
    · rw [hmem]; rfl
    · exact hinv1.counted.shared_count b2
    · intro hmem1
      have := ((hinv1.counted.freed_iff b2).1 hmem1).2
      rw [hal] at this
      exact Bool.noConfusion this
    · intro hnd q hq
      obtain ⟨vals, hp⟩ := reachable_ptrInv ops h hnd
      have hdel : s1.mem.deleted = r1.2.deleted := by rw [hmem]; rfl
      simp only [State.timesDeleted, hdel, e4]
      by_cases h1 : (s.mem.heap ba).cb.shared_use_count_ = 1
      · rw [if_pos h1]
        have hne : a.ptr_ ≠ some q := by
          intro haq
          have hcc := hp.unique q _ _ (holds_shared hi haq) (holds_shared hj hq)
          rw [hba, hbb] at hcc
          have hbab : ba = b2 := Option.some.inj hcc
          subst hbab
          have hone : s.strongOn ba = 1 := by
            have := hs.counted.shared_count ba
            rw [h1] at this
            omega
          simp only [State.strongOn, State.endShared] at hone hpos2
          omega
        cases hap : a.ptr_ with
        | none => simp
        | some p =>
          have hpq : p ≠ q := by
            intro hpq
            rw [hap, hpq] at hne
            exact hne rfl
          simp [List.count_append, List.count_cons, hpq]
      · rw [if_neg h1]
        simp

theorem C13_shared_copy_assign_amended_witness :
    ∃ s, run State.init [.shared_raw (some 7), .shared_raw (some 9), .shared_copy 1] = some s ∧
      ∃ s1, step s (.shared_assign_copy 0 1) = some s1 ∧
        s1.shared 0 = some { ptr_ := some 9, control_block_ := some 1 } ∧
        s1.mem.deleted = [7] ∧ (s1.mem.heap 1).cb.shared_use_count_ = 3 ∧
        s1.timesDeleted 9 = 0 :=
  ⟨_, rfl,
    by
      obtain ⟨ba, bb, r1, s1, h1, h2, _, _, _, h6, h7, _, _, _, _, _, _, _, _, h16⟩ :=
        (C13_shared_copy_assign_amended [.shared_raw (some 7), .shared_raw (some 9), .shared_copy 1]
          _ rfl 0 1
          { ptr_ := some 7, control_block_ := some 0 }
          { ptr_ := some 9, control_block_ := some 1 } rfl rfl).2 (by decide)
      have hs1 := Option.some.inj (h6.symm.trans rfl)
      refine ⟨s1, h6, h7, ?_, ?_, ?_⟩
      · rw [hs1]; rfl
      · rw [hs1]; rfl
      · rw [h16 (by decide) 9 rfl]; rfl⟩

end SmartPtr
